import Mathlib

/-!
# LLVMAnalysisTool: dominators and liveness as iterative dataflow

A shallow embedding of `DominatorsAnalysis::runOnFunction`
(`src/DominatorsAnalysis.cpp`) and `LivenessAnalysis::runOnFunction`
(`src/LivenessAnalysis.cpp`).

Conventions of the embedding.

* A pointer is an identity.  A basic block is identified with its position in
  the block list of its function (`for (auto &BB : F)` visits `0, 1, ...`), an
  instruction with a natural number `id`.
* `llvm::SmallPtrSet` is a duplicate-free list; iteration order is the
  insertion order, and `==` compares membership only.
* `llvm::MapVector` is an association list in insertion order.
* `BasicBlock::isEntryBlock()` holds exactly of the first block of a function.
* The `while (changed)` loops are run with an explicit amount of fuel; the
  termination theorems show that the amount supplied is always enough.
-/

namespace LLVMAnalysisTool

/-! ## Containers -/

/-- The type `llvm::SmallPtrSet<const T *, 8>`: a set of identities, kept as
the list of its members in insertion order. -/
abbrev SmallPtrSet (α : Type) := List α

/-- Membership insertion `S.insert(x)`: nothing happens when `x` is present. -/
def SmallPtrSet.insert {α : Type} [DecidableEq α] (S : SmallPtrSet α) (x : α) :
    SmallPtrSet α :=
  if x ∈ S then S else S ++ [x]

/-- Removal `S.erase(x)`. -/
def SmallPtrSet.erase {α : Type} [DecidableEq α] (S : SmallPtrSet α) (x : α) :
    SmallPtrSet α :=
  List.filter (fun y => decide (y ≠ x)) S

/-- The comparison `A != B` of two `SmallPtrSet`s: they differ when some
member of one is missing from the other. -/
def SmallPtrSet.ne {α : Type} [DecidableEq α] (A B : SmallPtrSet α) : Bool :=
  !(List.all A (fun x => decide (x ∈ B)) && List.all B (fun x => decide (x ∈ A)))

/-- The type `llvm::MapVector<const K *, V>` with keys given by their
identity. -/
abbrev MapVector (V : Type) := List (Nat × V)

/-- The lookup `M.find(k)`: the value of the first entry with key `k`, or
`none` for `M.end()`. -/
def MapVector.find {V : Type} : MapVector V → Nat → Option V
  | [], _ => none
  | (k', v) :: M, k => if k' = k then some v else MapVector.find M k

/-- The call `M.insert(std::make_pair(k, v))`: adds the entry at the end
unless the key is already there. -/
def MapVector.insert {V : Type} (M : MapVector V) (k : Nat) (v : V) : MapVector V :=
  match MapVector.find M k with
  | some _ => M
  | none => M ++ [(k, v)]

/-- Reading `M[k]`.  Every key read by the analyses is a block of the analysed
function and was inserted by the initialisation loop, so the default-inserting
branch of `operator[]` is never taken on a well-formed function; the embedding
returns the default value there and leaves the map alone. -/
def MapVector.index {V : Type} [Inhabited V] (M : MapVector V) (k : Nat) : V :=
  (MapVector.find M k).getD default

/-- The assignment `M[k] = v`. -/
def MapVector.assign {V : Type} : MapVector V → Nat → V → MapVector V
  | [], k, v => [(k, v)]
  | (k', v') :: M, k, v =>
    if k' = k then (k', v) :: M else (k', v') :: MapVector.assign M k v

/-! ## The control-flow graph -/

/-- An `llvm::Value` by kind and identity.  `instruction i` is the value
defined by the instruction with identity `i`. -/
inductive Value where
  | instruction (id : Nat)
  | argument (id : Nat)
  | basicBlock (id : Nat)
  | globalVariable (id : Nat)
  | constant (id : Nat)
  | other (id : Nat)
deriving DecidableEq, Repr

/-- An `llvm::Instruction`: its identity, whether it is a `PHINode`, its
operand list, and whether it has a user (`!Inst.user_empty()`). -/
structure Instruction where
  id : Nat
  isPHI : Bool
  operands : List Value
  hasUsers : Bool
deriving DecidableEq, Repr

/-- An `llvm::BasicBlock`: its instructions in order, and the blocks
enumerated by `pred_begin .. pred_end` and by `succ_begin .. succ_end`, each
with the multiplicity and in the order of the enumeration. -/
structure BasicBlock where
  insts : List Instruction
  preds : List Nat
  succs : List Nat
deriving DecidableEq, Repr

/-- An `llvm::Function`: its basic blocks in order; the first is the entry. -/
structure Function where
  blocks : List BasicBlock
deriving DecidableEq, Repr

/-- Number of basic blocks. -/
def Function.size (F : Function) : Nat := F.blocks.length

/-- The predecessors `pred_begin(&BB) .. pred_end(&BB)` of block `BB`. -/
def Function.preds (F : Function) (BB : Nat) : List Nat :=
  match F.blocks[BB]? with
  | some B => B.preds
  | none => []

/-- The successors `succ_begin(&BB) .. succ_end(&BB)` of block `BB`. -/
def Function.succs (F : Function) (BB : Nat) : List Nat :=
  match F.blocks[BB]? with
  | some B => B.succs
  | none => []

/-- The instructions of block `BB` in order. -/
def Function.insts (F : Function) (BB : Nat) : List Instruction :=
  match F.blocks[BB]? with
  | some B => B.insts
  | none => []

/-! ## The shared iteration discipline -/

/-- The loop `bool changed = true; while (changed) { changed = false; sweep }`
run for at most `fuel` sweeps.  A sweep returns the new state and its `changed`
flag.  The result is `none` when the fuel runs out before a sweep reports no
change. -/
def whileChanged {σ : Type} (sweep : σ → σ × Bool) : Nat → σ → Option σ
  | 0, _ => none
  | fuel + 1, s =>
    if (sweep s).2 then whileChanged sweep fuel (sweep s).1 else some (sweep s).1

/-! ## DominatorsAnalysis -/

/-- The type `BBPtrSet` of `DominatorsAnalysis.h`. -/
abbrev BBPtrSet := SmallPtrSet Nat

/-- The type `Dominators` of `DominatorsAnalysis.h`. -/
abbrev Dominators := MapVector BBPtrSet

/-- The result type `ResultDominators` of `DominatorsAnalysis.h`. -/
structure ResultDominators where
  dom : Dominators
deriving DecidableEq, Repr

/-- The initialisation loop of `DominatorsAnalysis::runOnFunction`
(lines 47-60): the entry block gets `{entry}`, every other block the set of
all blocks of the function. -/
def initDom (F : Function) : Dominators :=
  List.foldl
    (fun dom BB =>
      if BB = 0 then
        MapVector.insert dom BB (SmallPtrSet.insert [] BB)
      else
        MapVector.insert dom BB (List.foldl SmallPtrSet.insert [] (List.range F.size)))
    [] (List.range F.size)

/-- The body of the innermost loop (lines 83-91): `TempBB` is put into
`NewSet` and its occurrence counter in `AuxMap` is created at zero if missing
and then incremented.  A counter never exceeds `NPred`, itself an `unsigned`,
so the increment does not wrap. -/
def countOccurrence (acc : BBPtrSet × MapVector Nat) (TempBB : Nat) :
    BBPtrSet × MapVector Nat :=
  let NewSet := SmallPtrSet.insert acc.1 TempBB
  let AuxMap :=
    match MapVector.find acc.2 TempBB with
    | some _ => acc.2
    | none => MapVector.insert acc.2 TempBB 0
  (NewSet, MapVector.assign AuxMap TempBB (MapVector.index AuxMap TempBB + 1))

/-- The loop over the predecessors of `BB` (lines 78-92): every member of
every predecessor's current set is collected and counted. -/
def collectPreds (dom : Dominators) (preds : List Nat) : BBPtrSet × MapVector Nat :=
  List.foldl
    (fun acc PI => List.foldl countOccurrence acc (MapVector.index dom PI))
    ([], []) preds

/-- The set `NewSet` computed for block `BB` from the current map
(lines 70-103): the collected members whose counter reached `NPred`, and `BB`
itself. -/
def newDomSet (F : Function) (dom : Dominators) (BB : Nat) : BBPtrSet :=
  let NPred := (F.preds BB).length
  let acc := collectPreds dom (F.preds BB)
  let NewSet :=
    List.foldl
      (fun NewSet ITMap =>
        if ITMap.2 < NPred then SmallPtrSet.erase NewSet ITMap.1 else NewSet)
      acc.1 acc.2
  SmallPtrSet.insert NewSet BB

/-- One iteration of the loop over the non-entry blocks (lines 69-109): the
map is updated in place when the new set differs from the current one. -/
def domVisit (F : Function) (st : Dominators × Bool) (BB : Nat) : Dominators × Bool :=
  let ActualSet := MapVector.index st.1 BB
  let NewSet := newDomSet F st.1 BB
  if SmallPtrSet.ne ActualSet NewSet then (MapVector.assign st.1 BB NewSet, true) else st

/-- One sweep of the `while` body (lines 64-109): `changed` starts out false
and every block but the first is visited in order.  On a function without
blocks the increment of `F.begin()` leaves the iterator at `F.end()` (the block
list is a ring through its sentinel), so no block is visited. -/
def domSweep (F : Function) (dom : Dominators) : Dominators × Bool :=
  List.foldl (domVisit F) (dom, false) (List.range F.size).tail

/-- Sweeps that suffice for the dominator iteration of `F`. -/
def domFuel (F : Function) : Nat := F.size * F.size + 1

/-- The function `DominatorsAnalysis::runOnFunction`. -/
def DominatorsAnalysis.runOnFunction (F : Function) : Option ResultDominators :=
  Option.map ResultDominators.mk (whileChanged (domSweep F) (domFuel F) (initDom F))

/-- The accessor `ResultDominators::getBBDominators`: `dom.find(BB)->second`.
The result is `none` where `find` returns `dom.end()`. -/
def ResultDominators.getBBDominators (res : ResultDominators) (BB : Nat) :
    Option BBPtrSet :=
  MapVector.find res.dom BB


/-! ## LivenessAnalysis -/

/-- The type `ValueSet` of `LivenessAnalysis.h`. -/
abbrev ValueSet := SmallPtrSet Value

/-- The type `BBLiveOutSet` of `LivenessAnalysis.h`, keyed by block. -/
abbrev BBLiveOutSet := MapVector ValueSet

/-- The type `InstLiveOutSet` of `LivenessAnalysis.h`, keyed by the identity
of the instruction. -/
abbrev InstLiveOutSet := MapVector ValueSet

/-- The result type `ResultLivenessAnalysis` of `LivenessAnalysis.h`. -/
structure ResultLivenessAnalysis where
  ResultBBLiveOut : BBLiveOutSet
  ResultInstLiveOut : InstLiveOutSet
deriving DecidableEq, Repr

/-- The test `!isa<BasicBlock>(*v) && !isa<GlobalVariable>(*v) &&
!isa<Constant>(*v)` of lines 56 and 119. -/
def Value.isTracked : Value → Bool
  | Value.basicBlock _ => false
  | Value.globalVariable _ => false
  | Value.constant _ => false
  | _ => true

/-- The block `I->getParent()` of the instruction with identity `id`: the
block whose instruction list holds it (`none` for an instruction in no block of
`F`).  Identities are addresses, so an instruction is in one block at most. -/
def Function.getParent (F : Function) (id : Nat) : Option Nat :=
  List.find? (fun BB => List.any (F.insts BB) (fun I => I.id == id)) (List.range F.size)

/-- The test of lines 104-105 on an operand `v` of a phi of block `BB`:
`v` is an instruction and its parent is `BB`. -/
def definedInBlock (F : Function) (BB : Nat) : Value → Bool
  | Value.instruction id => decide (F.getParent id = some BB)
  | _ => false

/-- The three maps of `LivenessAnalysis::runOnFunction`. -/
structure LivenessMaps where
  UEVar : BBLiveOutSet
  VarKill : BBLiveOutSet
  LiveOut : BBLiveOutSet
deriving DecidableEq, Repr

/-- The body of the loop over the instructions of a block (lines 51-64), on
the pair `(BBUEVar, BBVarKill)`: the tracked operands of a non-phi instruction
that are not yet in `BBVarKill` go to `BBUEVar`; then the instruction goes to
`BBVarKill` if it has a user. -/
def summarizeInst (acc : ValueSet × ValueSet) (Inst : Instruction) : ValueSet × ValueSet :=
  let BBUEVar :=
    if Inst.isPHI then acc.1
    else
      List.foldl
        (fun BBUEVar v =>
          if !decide (v ∈ acc.2) && v.isTracked then SmallPtrSet.insert BBUEVar v
          else BBUEVar)
        acc.1 Inst.operands
  let BBVarKill :=
    if Inst.hasUsers then SmallPtrSet.insert acc.2 (Value.instruction Inst.id) else acc.2
  (BBUEVar, BBVarKill)

/-- Phase 1 (lines 47-65): for every block, its `UEVar` and `VarKill`
summaries and an empty `LiveOut`. -/
def phase1 (F : Function) : LivenessMaps :=
  List.foldl
    (fun maps BB =>
      let summary := List.foldl summarizeInst ([], []) (F.insts BB)
      { UEVar := MapVector.insert maps.UEVar BB summary.1
        VarKill := MapVector.insert maps.VarKill BB summary.2
        LiveOut := MapVector.insert maps.LiveOut BB [] })
    { UEVar := [], VarKill := [], LiveOut := [] } (List.range F.size)

/-- The set `NewLiveOut` recomputed for block `BB` (lines 71-91): for every
successor, `TmpLiveOut` is the successor's `LiveOut` without its `VarKill` and
with its `UEVar`, and is added to `NewLiveOut`. -/
def newLiveOut (F : Function) (UEVar VarKill LiveOut : BBLiveOutSet) (BB : Nat) : ValueSet :=
  List.foldl
    (fun NewLiveOut SuccBB =>
      let TmpLiveOut := List.foldl SmallPtrSet.insert [] (MapVector.index LiveOut SuccBB)
      let TmpLiveOut := List.foldl SmallPtrSet.erase TmpLiveOut (MapVector.index VarKill SuccBB)
      let TmpLiveOut := List.foldl SmallPtrSet.insert TmpLiveOut (MapVector.index UEVar SuccBB)
      List.foldl SmallPtrSet.insert NewLiveOut TmpLiveOut)
    [] (F.succs BB)

/-- One iteration of the loop over the blocks in Phase 2 (lines 69-96). -/
def liveVisit (F : Function) (UEVar VarKill : BBLiveOutSet) (st : BBLiveOutSet × Bool)
    (BB : Nat) : BBLiveOutSet × Bool :=
  let BBLiveOut := MapVector.index st.1 BB
  let NewLiveOut := newLiveOut F UEVar VarKill st.1 BB
  if SmallPtrSet.ne NewLiveOut BBLiveOut then (MapVector.assign st.1 BB NewLiveOut, true)
  else st

/-- One sweep of the `while` body of Phase 2 (lines 68-96). -/
def liveSweep (F : Function) (UEVar VarKill LiveOut : BBLiveOutSet) : BBLiveOutSet × Bool :=
  List.foldl (liveVisit F UEVar VarKill) (LiveOut, false) (List.range F.size)

/-- Sweeps that suffice for the liveness iteration: one more than the number
of blocks times the number of values held by the `UEVar` sets. -/
def liveFuel (F : Function) (UEVar : BBLiveOutSet) : Nat :=
  F.size * (List.flatMap UEVar Prod.snd).length + 1

/-- Phases 1 and 2 (lines 47-97): the `LiveOut` map at the exit of the
`while` loop. -/
def phase2 (F : Function) : Option BBLiveOutSet :=
  whileChanged (liveSweep F (phase1 F).UEVar (phase1 F).VarKill)
    (liveFuel F (phase1 F).UEVar) (phase1 F).LiveOut

/-- Phase 3 (lines 99-111): every operand of a phi of `BB` that is an
instruction of `BB` is inserted into `LiveOut[&BB]`. -/
def phiCorrection (F : Function) (LiveOut : BBLiveOutSet) : BBLiveOutSet :=
  List.foldl
    (fun LiveOut BB =>
      List.foldl
        (fun LiveOut (Inst : Instruction) =>
          if Inst.isPHI then
            List.foldl
              (fun LiveOut v =>
                if definedInBlock F BB v then
                  MapVector.assign LiveOut BB (SmallPtrSet.insert (MapVector.index LiveOut BB) v)
                else LiveOut)
              LiveOut Inst.operands
          else LiveOut)
        LiveOut (F.insts BB))
    LiveOut (List.range F.size)

/-- The body of the reverse scan of a block (lines 115-123), on the pair
`(InstVSet, BBLiveOut)`: the running set is recorded for the instruction, then
gets its tracked operands, then loses the instruction itself. -/
def scanInst (st : InstLiveOutSet × ValueSet) (Inst : Instruction) :
    InstLiveOutSet × ValueSet :=
  let InstVSet := MapVector.assign st.1 Inst.id st.2
  let BBLiveOut :=
    List.foldl
      (fun BBLiveOut (v : Value) =>
        if v.isTracked then SmallPtrSet.insert BBLiveOut v else BBLiveOut)
      st.2 Inst.operands
  (InstVSet, SmallPtrSet.erase BBLiveOut (Value.instruction Inst.id))

/-- Phase 4 (lines 112-125): the per-instruction sets, by one reverse scan of
every block from a copy of its `LiveOut`. -/
def phase4 (F : Function) (LiveOut : BBLiveOutSet) : InstLiveOutSet :=
  List.foldl
    (fun InstVSet BB =>
      (List.foldl scanInst (InstVSet, MapVector.index LiveOut BB) (F.insts BB).reverse).1)
    [] (List.range F.size)

/-- The function `LivenessAnalysis::runOnFunction`. -/
def LivenessAnalysis.runOnFunction (F : Function) : Option ResultLivenessAnalysis :=
  match phase2 F with
  | none => none
  | some LiveOut =>
    some { ResultBBLiveOut := phiCorrection F LiveOut
           ResultInstLiveOut := phase4 F (phiCorrection F LiveOut) }

/-! ## Dominance, stated on paths -/

/-- Well-formedness of the predecessor lists: every predecessor of a block of
`F` is a block of `F`. -/
def Function.PredsInRange (F : Function) : Prop :=
  ∀ m, m < F.size → ∀ p ∈ F.preds m, p < F.size

instance (F : Function) : Decidable F.PredsInRange := by
  unfold Function.PredsInRange
  infer_instance

/-- The statement `CFGPath F a m l`: the list `l` enumerates the blocks of a
path from block `a` to block `m`, where an edge leads from each predecessor of
a block to that block.  The one-block path is a path. -/
inductive CFGPath (F : Function) (a : Nat) : Nat → List Nat → Prop where
  | single : a < F.size → CFGPath F a a [a]
  | step {p m : Nat} {l : List Nat} :
      CFGPath F a p l → m < F.size → p ∈ F.preds m → CFGPath F a m (l ++ [m])

/-- Block `m` is reachable from the entry block. -/
def Reachable (F : Function) (m : Nat) : Prop := ∃ l, CFGPath F 0 m l

/-- Block `n` dominates block `m`: it lies on every path from the entry
to `m`. -/
def Dominates (F : Function) (n m : Nat) : Prop := ∀ l, CFGPath F 0 m l → n ∈ l

/-- A root is the entry block or a block without predecessors. -/
def IsRoot (F : Function) (r : Nat) : Prop := r < F.size ∧ (r = 0 ∨ F.preds r = [])

/-- Block `n` lies on every path from every root to `m`. -/
def MultiDominates (F : Function) (n m : Nat) : Prop :=
  ∀ r l, IsRoot F r → CFGPath F r m l → n ∈ l

/-- The facts that hold of the dominator map throughout the iteration: its
keys are the blocks, every set is duplicate-free, within the blocks and holds
its own block, the entry has `{entry}`, and recomputing a set never adds to
it. -/
structure DomInv (F : Function) (dom : Dominators) : Prop where
  keys : List.map Prod.fst dom = List.range F.size
  nodup : ∀ k, List.Nodup (MapVector.index dom k)
  entry : 0 < F.size → MapVector.index dom 0 = [0]
  refl : ∀ k, k < F.size → k ∈ MapVector.index dom k
  bound : ∀ k x, x ∈ MapVector.index dom k → x < F.size
  desc : ∀ b, 0 < b → b < F.size → ∀ t, t ∈ newDomSet F dom b → t ∈ MapVector.index dom b

/-- Total size of the sets of the dominator map. -/
def domMeasure (F : Function) (dom : Dominators) : Nat :=
  (List.map (fun k => (MapVector.index dom k).length) (List.range F.size)).sum

/-! ## Liveness, stated on paths -/

/-- The statement `LivePath F UEVar VarKill v n p`: the blocks `p = [b1, ..., bk]`
with `k ≥ 1` continue `n` to a path `n → b1 → ... → bk` along successor edges,
`v` is in `UEVar(bk)`, and `v` is in no `VarKill(bi)` with `i < k`. -/
def LivePath (F : Function) (UEVar VarKill : BBLiveOutSet) (v : Value) (n : Nat)
    (p : List Nat) : Prop :=
  List.Chain (fun a b => b ∈ F.succs a) n p ∧
  (∃ bk, p.getLast? = some bk ∧ v ∈ MapVector.index UEVar bk) ∧
  ∀ b ∈ p.dropLast, v ∉ MapVector.index VarKill b

/-- The liveness equation at block `n` for the map `LiveOut`: the members of
`LiveOut(n)` are the values that, for some successor `s` of `n`, are in
`LiveOut(s)` but not in `VarKill(s)`, or in `UEVar(s)`. -/
def LiveOutEquation (F : Function) (UEVar VarKill LiveOut : BBLiveOutSet) (n : Nat) : Prop :=
  ∀ v, v ∈ MapVector.index LiveOut n ↔
    ∃ s ∈ F.succs n,
      (v ∈ MapVector.index LiveOut s ∧ v ∉ MapVector.index VarKill s) ∨
        v ∈ MapVector.index UEVar s

/-- No phi of block `BB` has an operand that is an instruction of `BB`. -/
def NoSelfPhiAt (F : Function) (BB : Nat) : Prop :=
  ∀ Inst ∈ F.insts BB, Inst.isPHI = true →
    ∀ v ∈ Inst.operands, definedInBlock F BB v = false

instance (F : Function) (BB : Nat) : Decidable (NoSelfPhiAt F BB) := by
  unfold NoSelfPhiAt
  infer_instance

/-- The facts that hold of the `LiveOut` map throughout Phase 2: its keys are
the blocks, every set is duplicate-free and within the values of the `UEVar`
sets, and recomputing a set never removes from it. -/
structure LiveInv (F : Function) (UEVar VarKill LiveOut : BBLiveOutSet) : Prop where
  keys : List.map Prod.fst LiveOut = List.range F.size
  nodup : ∀ k, List.Nodup (MapVector.index LiveOut k)
  bound : ∀ k x, x ∈ MapVector.index LiveOut k → x ∈ List.flatMap UEVar Prod.snd
  asc : ∀ b t, t ∈ MapVector.index LiveOut b → t ∈ newLiveOut F UEVar VarKill LiveOut b

/-- Room left in the sets of the `LiveOut` map. -/
def liveMeasure (F : Function) (UEVar LiveOut : BBLiveOutSet) : Nat :=
  F.size * (List.flatMap UEVar Prod.snd).length -
    (List.map (fun k => (MapVector.index LiveOut k).length) (List.range F.size)).sum

/-! ## Notions for the scan of Phase 4, the accessors and the trace -/

/-- Instruction identities are distinct throughout the function: they are
addresses. -/
def Function.InstIdsNodup (F : Function) : Prop :=
  List.Nodup
    (List.flatMap (List.range F.size) (fun BB => List.map Instruction.id (F.insts BB)))

instance (F : Function) : Decidable F.InstIdsNodup := by
  unfold Function.InstIdsNodup
  infer_instance

/-- The running set `BBLiveOut` of the reverse scan of a block (lines 113-124)
once the instructions `later`, given in program order, have been scanned. -/
def runningSet (BBLiveOut : ValueSet) (later : List Instruction) : ValueSet :=
  (List.foldl scanInst ([], BBLiveOut) later.reverse).2

/-- What a call comes to: it returns a value, signals a lookup error, or
leaves the defined behaviour of the language. -/
inductive Outcome (α : Type) where
  | returns (a : α)
  | lookupError
  | undefinedBehaviour
deriving DecidableEq, Repr

/-- The control flow of `ResultDominators::getBBDominators` (lines 123-127):
the iterator returned by `dom.find(BB)` is dereferenced without a comparison
with `dom.end()`, so a key that is absent leads to the dereference of the end
iterator; the function has no statement that signals an error. -/
def ResultDominators.getBBDominatorsOutcome (res : ResultDominators) (BB : Nat) :
    Outcome BBPtrSet :=
  match MapVector.find res.dom BB with
  | some S => Outcome.returns S
  | none => Outcome.undefinedBehaviour

/-- The maps that occur during the dominator iteration: the initial map, and
the map left by the visit of a non-entry block to a map that occurs. -/
inductive DomReach (F : Function) : Dominators → Prop where
  | init : DomReach F (initDom F)
  | visit {dom : Dominators} (changed : Bool) (BB : Nat) :
      DomReach F dom → 0 < BB → BB < F.size → DomReach F (domVisit F (dom, changed) BB).1

/-- Every member of every set of the map is a tracked value: none is a
constant, a global or a basic block. -/
def AllTracked (M : MapVector ValueSet) : Prop :=
  ∀ e ∈ M, ∀ v ∈ e.2, v.isTracked = true

/-- Reference definition of `VarKill(b)`, from the specification: the
instructions of `b` that have at least one use. -/
def refVarKill (F : Function) (b : Nat) (v : Value) : Prop :=
  ∃ I ∈ F.insts b, I.hasUsers = true ∧ v = Value.instruction I.id

/-- Reference definition of `UEVar(b)`, from the specification: the values
`v`, not a constant, global or block, that are an operand of some non-phi
instruction `i` of `b` and are not an instruction with a use that occurs
strictly before `i` in `b`. -/
def refUEVar (F : Function) (b : Nat) (v : Value) : Prop :=
  v.isTracked = true ∧
  ∃ pre i post, F.insts b = pre ++ i :: post ∧ i.isPHI = false ∧ v ∈ i.operands ∧
    ∀ I ∈ pre, I.hasUsers = true → v ≠ Value.instruction I.id

/-- Every instruction of the function whose value occurs as an operand of
some instruction of the function is flagged as having a user. -/
def OperandsHaveUsers (F : Function) : Prop :=
  ∀ b, b < F.size → ∀ I ∈ F.insts b,
    (∃ b', b' < F.size ∧ ∃ J ∈ F.insts b', Value.instruction I.id ∈ J.operands) →
      I.hasUsers = true

instance (F : Function) : Decidable (OperandsHaveUsers F) := by
  unfold OperandsHaveUsers
  infer_instance

/-! ## Example functions -/

/-- A function with a block that nothing jumps to beside the entry: the entry
(block 0) and the dead block 1 both branch to block 2. -/
def deadPredFunction : Function :=
  ⟨[⟨[], [], [2]⟩, ⟨[], [], [2]⟩, ⟨[], [0, 1], []⟩]⟩

/-- The diamond `entry → {A, B} → join`, as blocks 0, 1, 2, 3. -/
def diamondFunction : Function :=
  ⟨[⟨[], [], [1, 2]⟩, ⟨[], [0], [3]⟩, ⟨[], [0], [3]⟩, ⟨[], [1, 2], []⟩]⟩

/-- The loop `entry → loop → {loop, exit}`.  Block 1 holds `%1 = phi [0, entry],
[%2, loop]`, `%2 = add %1, 1`, `%3 = icmp %2, 10` and `br %3, loop, exit`. -/
def loopFunction : Function :=
  ⟨[⟨[⟨0, false, [Value.basicBlock 1], false⟩], [], [1]⟩,
    ⟨[⟨1, true, [Value.constant 0, Value.instruction 2], true⟩,
      ⟨2, false, [Value.instruction 1, Value.constant 1], true⟩,
      ⟨3, false, [Value.instruction 2, Value.constant 10], true⟩,
      ⟨4, false, [Value.instruction 3, Value.basicBlock 1, Value.basicBlock 2], false⟩],
     [0, 1], [1, 2]⟩,
    ⟨[⟨5, false, [], false⟩], [1], []⟩]⟩

/-- A diamond with data flow: block 0 holds `%1 = add %a, 1` and a branch on
`%c`; block 1 holds `%3 = mul %1, 2`; block 2 only branches; block 3 returns
`%1`. -/
def flowFunction : Function :=
  ⟨[⟨[⟨1, false, [Value.argument 0, Value.constant 1], true⟩,
      ⟨2, false, [Value.argument 1, Value.basicBlock 1, Value.basicBlock 2], false⟩],
     [], [1, 2]⟩,
    ⟨[⟨3, false, [Value.instruction 1, Value.constant 2], false⟩,
      ⟨4, false, [Value.basicBlock 3], false⟩], [0], [3]⟩,
    ⟨[⟨5, false, [Value.basicBlock 3], false⟩], [0], [3]⟩,
    ⟨[⟨6, false, [Value.instruction 1], false⟩], [1, 2], []⟩]⟩

/-- A straight-line block: `%1 = add %a, 1` followed by `ret %1`. -/
def straightFunction : Function :=
  ⟨[⟨[⟨1, false, [Value.argument 0, Value.constant 1], true⟩,
      ⟨2, false, [Value.instruction 1], false⟩], [], []⟩]⟩

/-- The diamond with the predecessors of the join block enumerated in the
other order. -/
def diamondSwapped : Function :=
  ⟨[⟨[], [], [1, 2]⟩, ⟨[], [0], [3]⟩, ⟨[], [0], [3]⟩, ⟨[], [2, 1], []⟩]⟩

/-! ## Facts about the containers -/

theorem SmallPtrSet.mem_insert {α : Type} [DecidableEq α] (S : SmallPtrSet α) (x y : α) :
    y ∈ SmallPtrSet.insert S x ↔ y ∈ S ∨ y = x := by
  unfold SmallPtrSet.insert
  split
  · constructor
    · intro h; exact Or.inl h
    · rintro (h | h)
      · exact h
      · subst h; assumption
  · simp

theorem SmallPtrSet.nodup_insert {α : Type} [DecidableEq α] (S : SmallPtrSet α) (x : α)
    (h : List.Nodup S) : List.Nodup (SmallPtrSet.insert S x) := by
  unfold SmallPtrSet.insert
  split
  · exact h
  · rename_i hx
    rw [List.nodup_append]
    refine ⟨h, List.nodup_singleton x, ?_⟩
    intro a ha hb
    simp at hb
    subst hb
    exact hx ha

theorem SmallPtrSet.mem_erase {α : Type} [DecidableEq α] (S : SmallPtrSet α) (x y : α) :
    y ∈ SmallPtrSet.erase S x ↔ y ∈ S ∧ y ≠ x := by
  simp [SmallPtrSet.erase]

theorem SmallPtrSet.nodup_erase {α : Type} [DecidableEq α] (S : SmallPtrSet α) (x : α)
    (h : List.Nodup S) : List.Nodup (SmallPtrSet.erase S x) :=
  List.Nodup.filter _ h

theorem SmallPtrSet.ne_eq_false_iff {α : Type} [DecidableEq α] (A B : SmallPtrSet α) :
    SmallPtrSet.ne A B = false ↔ ∀ x, x ∈ A ↔ x ∈ B := by
  simp only [SmallPtrSet.ne, Bool.not_eq_false', Bool.and_eq_true, List.all_eq_true,
    decide_eq_true_eq]
  constructor
  · rintro ⟨h1, h2⟩ x
    exact ⟨h1 x, h2 x⟩
  · intro h
    exact ⟨fun x hx => (h x).1 hx, fun x hx => (h x).2 hx⟩

theorem SmallPtrSet.ne_eq_true_iff {α : Type} [DecidableEq α] (A B : SmallPtrSet α) :
    SmallPtrSet.ne A B = true ↔ ¬ ∀ x, x ∈ A ↔ x ∈ B := by
  rw [← SmallPtrSet.ne_eq_false_iff]
  cases SmallPtrSet.ne A B <;> simp

theorem MapVector.find_assign {V : Type} (M : MapVector V) (k k' : Nat) (v : V) :
    MapVector.find (MapVector.assign M k v) k' =
      if k' = k then some v else MapVector.find M k' := by
  induction M with
  | nil =>
    simp only [MapVector.assign, MapVector.find]
    by_cases h : k' = k
    · simp [h]
    · have h' : ¬ k = k' := fun e => h e.symm
      simp [h, h']
  | cons e M ih =>
    obtain ⟨k0, v0⟩ := e
    simp only [MapVector.assign]
    by_cases h0 : k0 = k
    · subst h0
      simp only [if_true, MapVector.find]
      by_cases h : k0 = k'
      · subst h; simp
      · have h' : ¬ k' = k0 := fun e => h e.symm
        simp [h, h']
    · simp only [h0, if_false, MapVector.find, ih]
      by_cases h : k0 = k'
      · subst h; simp [h0]
      · simp [h]

theorem MapVector.index_assign {V : Type} [Inhabited V] (M : MapVector V) (k k' : Nat) (v : V) :
    MapVector.index (MapVector.assign M k v) k' =
      if k' = k then v else MapVector.index M k' := by
  unfold MapVector.index
  rw [MapVector.find_assign]
  split <;> rfl

theorem MapVector.find_append {V : Type} (M M' : MapVector V) (k : Nat) :
    MapVector.find (M ++ M') k =
      match MapVector.find M k with
      | some v => some v
      | none => MapVector.find M' k := by
  induction M with
  | nil => simp [MapVector.find]
  | cons e M ih =>
    obtain ⟨k0, v0⟩ := e
    simp only [List.cons_append, MapVector.find]
    by_cases h : k0 = k
    · simp [h]
    · simp [h, ih]

theorem MapVector.find_insert {V : Type} (M : MapVector V) (k k' : Nat) (v : V) :
    MapVector.find (MapVector.insert M k v) k' =
      match MapVector.find M k' with
      | some w => some w
      | none => if k' = k then some v else none := by
  unfold MapVector.insert
  cases hk : MapVector.find M k with
  | some w =>
    simp only
    cases hk' : MapVector.find M k' with
    | some w' => rfl
    | none =>
      simp only
      have : ¬ k' = k := by
        intro e; subst e; rw [hk] at hk'; cases hk'
      simp [this]
  | none =>
    simp only [MapVector.find_append]
    cases hk' : MapVector.find M k' with
    | some w' => rfl
    | none =>
      simp only [MapVector.find]
      by_cases h : k = k'
      · subst h; simp
      · have h' : ¬ k' = k := fun e => h e.symm
        simp [h, h']

theorem MapVector.find_of_mem {V : Type} (M : MapVector V)
    (hM : List.Nodup (List.map Prod.fst M)) (k : Nat) (v : V) (h : (k, v) ∈ M) :
    MapVector.find M k = some v := by
  induction M with
  | nil => cases h
  | cons e M ih =>
    obtain ⟨k0, v0⟩ := e
    simp only [List.map_cons, List.nodup_cons] at hM
    simp only [MapVector.find]
    rcases List.mem_cons.1 h with h | h
    · cases h; simp
    · have : k0 ≠ k := by
        intro e; subst e
        exact hM.1 (List.mem_map_of_mem Prod.fst h)
      simp [this, ih hM.2 h]

theorem MapVector.mem_of_find {V : Type} (M : MapVector V) (k : Nat) (v : V)
    (h : MapVector.find M k = some v) : (k, v) ∈ M := by
  induction M with
  | nil => cases h
  | cons e M ih =>
    obtain ⟨k0, v0⟩ := e
    simp only [MapVector.find] at h
    by_cases h0 : k0 = k
    · simp only [h0, if_true, Option.some.injEq] at h
      subst h0; subst h; exact List.mem_cons_self _ _
    · simp only [h0, if_false] at h
      exact List.mem_cons_of_mem _ (ih h)

theorem MapVector.keys_assign {V : Type} (M : MapVector V) (k : Nat) (v : V) :
    List.map Prod.fst (MapVector.assign M k v) =
      if k ∈ List.map Prod.fst M then List.map Prod.fst M else List.map Prod.fst M ++ [k] := by
  induction M with
  | nil => simp [MapVector.assign]
  | cons e M ih =>
    obtain ⟨k0, v0⟩ := e
    simp only [MapVector.assign]
    by_cases h0 : k0 = k
    · subst h0; simp
    · have h0' : ¬ k = k0 := fun e => h0 e.symm
      simp only [h0, if_false, List.map_cons, ih, List.mem_cons, h0', false_or]
      split <;> simp

theorem MapVector.find_eq_none_iff {V : Type} (M : MapVector V) (k : Nat) :
    MapVector.find M k = none ↔ k ∉ List.map Prod.fst M := by
  induction M with
  | nil => simp [MapVector.find]
  | cons e M ih =>
    obtain ⟨k0, v0⟩ := e
    simp only [MapVector.find, List.map_cons, List.mem_cons, not_or]
    by_cases h0 : k0 = k
    · subst h0; simp
    · have h0' : ¬ k = k0 := fun e => h0 e.symm
      simp [h0, h0', ih]

/-! ## Facts about the iteration discipline -/

theorem whileChanged_mono {σ : Type} (sweep : σ → σ × Bool) (r : σ) :
    ∀ (fuel fuel' : Nat) (s : σ), fuel ≤ fuel' → whileChanged sweep fuel s = some r →
      whileChanged sweep fuel' s = some r := by
  intro fuel
  induction fuel with
  | zero => intro fuel' s _ h; cases h
  | succ n ih =>
    intro fuel' s hle h
    obtain ⟨m, rfl⟩ : ∃ m, fuel' = m + 1 := ⟨fuel' - 1, by omega⟩
    simp only [whileChanged] at h ⊢
    split
    · rename_i hc
      rw [if_pos hc] at h
      exact ih m _ (by omega) h
    · rename_i hc
      rw [if_neg hc] at h
      exact h

theorem whileChanged_terminates {σ : Type} (sweep : σ → σ × Bool) (Inv : σ → Prop)
    (μ : σ → Nat) (hInv : ∀ s, Inv s → Inv (sweep s).1)
    (hdec : ∀ s, Inv s → (sweep s).2 = true → μ (sweep s).1 < μ s) :
    ∀ (fuel : Nat) (s : σ), Inv s → μ s < fuel →
      ∃ r s', whileChanged sweep fuel s = some r ∧ Inv s' ∧ sweep s' = (r, false) := by
  intro fuel
  induction fuel with
  | zero => intro s _ h; omega
  | succ n ih =>
    intro s hs hμ
    simp only [whileChanged]
    by_cases hc : (sweep s).2 = true
    · rw [if_pos hc]
      exact ih _ (hInv s hs) (by have := hdec s hs hc; omega)
    · rw [if_neg hc]
      refine ⟨(sweep s).1, s, rfl, hs, ?_⟩
      have : (sweep s).2 = false := by simpa using hc
      rw [← this]


/-- What a run of visits does, for visits that either leave the state alone
or report a change and shrink the measure. -/
theorem foldl_visit_spec {σ : Type} (visit : σ × Bool → Nat → σ × Bool) (Inv : σ → Prop)
    (μ : σ → Nat) (stable : σ → Nat → Prop) (L : List Nat)
    (hvisit : ∀ st b, b ∈ L → Inv st.1 →
      (visit st b = st ∧ stable st.1 b) ∨
      ((visit st b).2 = true ∧ Inv (visit st b).1 ∧ μ (visit st b).1 < μ st.1)) :
    ∀ st : σ × Bool, Inv st.1 →
      Inv (List.foldl visit st L).1 ∧
      μ (List.foldl visit st L).1 ≤ μ st.1 ∧
      ((List.foldl visit st L).2 = true →
        st.2 = true ∨ μ (List.foldl visit st L).1 < μ st.1) ∧
      ((List.foldl visit st L).2 = false →
        List.foldl visit st L = st ∧ ∀ b ∈ L, stable st.1 b) := by
  induction L with
  | nil => intro st h; simp [h]
  | cons b L ih =>
    intro st h
    have hL : ∀ st b, b ∈ L → Inv st.1 →
        (visit st b = st ∧ stable st.1 b) ∨
        ((visit st b).2 = true ∧ Inv (visit st b).1 ∧ μ (visit st b).1 < μ st.1) :=
      fun st x hx => hvisit st x (List.mem_cons_of_mem _ hx)
    simp only [List.foldl_cons]
    rcases hvisit st b (List.mem_cons_self _ _) h with ⟨hv, hs⟩ | ⟨hc, hi, hlt⟩
    · rw [hv]
      obtain ⟨i1, i2, i3, i4⟩ := ih hL st h
      refine ⟨i1, i2, i3, ?_⟩
      intro hf
      obtain ⟨j1, j2⟩ := i4 hf
      refine ⟨j1, ?_⟩
      intro x hx
      rcases List.mem_cons.1 hx with rfl | hx
      · exact hs
      · exact j2 x hx
    · obtain ⟨i1, i2, i3, i4⟩ := ih hL (visit st b) hi
      refine ⟨i1, by omega, ?_, ?_⟩
      · intro _; right; omega
      · intro hf
        have := (i4 hf).1
        rw [this] at hf
        rw [hc] at hf
        cases hf

/-! ## The counting intersection -/

/-- What the collecting loop has established after the members `seen` went by. -/
theorem countOccurrence_spec (acc : BBPtrSet × MapVector Nat) (seen : List Nat) (x : Nat)
    (h1 : ∀ t, t ∈ acc.1 ↔ t ∈ seen) (h2 : List.Nodup acc.1)
    (h3 : ∀ t, MapVector.find acc.2 t = if t ∈ seen then some (List.count t seen) else none)
    (h4 : List.Nodup (List.map Prod.fst acc.2)) :
    (∀ t, t ∈ (countOccurrence acc x).1 ↔ t ∈ seen ++ [x]) ∧
    List.Nodup (countOccurrence acc x).1 ∧
    (∀ t, MapVector.find (countOccurrence acc x).2 t =
      if t ∈ seen ++ [x] then some (List.count t (seen ++ [x])) else none) ∧
    List.Nodup (List.map Prod.fst (countOccurrence acc x).2) := by
  refine ⟨?_, ?_, ?_, ?_⟩
  · intro t
    simp only [countOccurrence, SmallPtrSet.mem_insert, h1, List.mem_append, List.mem_singleton]
  · exact SmallPtrSet.nodup_insert _ _ h2
  · intro t
    simp only [countOccurrence]
    rw [MapVector.find_assign]
    by_cases hx : x ∈ seen
    · have hf : MapVector.find acc.2 x = some (List.count x seen) := by rw [h3]; simp [hx]
      simp only [hf]
      by_cases ht : t = x
      · subst ht
        simp [MapVector.index, hf, List.count_append]
      · have := h3 t
        simp only [ht, if_false, this, List.mem_append, List.mem_singleton, or_false,
          List.count_append]
        have hc : List.count t [x] = 0 := by
          rw [List.count_eq_zero]; simpa using ht
        simp [hc]
    · have hf : MapVector.find acc.2 x = none := by rw [h3]; simp [hx]
      simp only [hf]
      by_cases ht : t = x
      · subst ht
        have hi : MapVector.find (MapVector.insert acc.2 t 0) t = some 0 := by
          rw [MapVector.find_insert, hf]; simp
        have hc : List.count t seen = 0 := by
          rw [List.count_eq_zero]; exact hx
        simp [MapVector.index, hi, List.count_append, hc]
      · have := h3 t
        rw [MapVector.find_insert]
        simp only [ht, if_false, this, List.mem_append, List.mem_singleton, or_false,
          List.count_append]
        have hc : List.count t [x] = 0 := by
          rw [List.count_eq_zero]; simpa using ht
        by_cases hts : t ∈ seen
        · simp [hts, hc]
        · simp [hts]
  · simp only [countOccurrence]
    rw [MapVector.keys_assign]
    cases hf : MapVector.find acc.2 x with
    | some c =>
      simp only
      have : x ∈ List.map Prod.fst acc.2 := by
        by_contra hn
        rw [(MapVector.find_eq_none_iff _ _).2 hn] at hf
        cases hf
      simp [this, h4]
    | none =>
      simp only
      have hn : x ∉ List.map Prod.fst acc.2 := (MapVector.find_eq_none_iff _ _).1 hf
      simp only [MapVector.insert, hf, List.map_append, List.map_cons, List.map_nil,
        List.mem_append, List.mem_singleton, or_true, if_true]
      rw [List.nodup_append]
      refine ⟨h4, List.nodup_singleton x, ?_⟩
      intro a ha hb
      simp at hb
      subst hb
      exact hn ha

theorem foldl_countOccurrence_spec (L : List Nat) :
    ∀ (acc : BBPtrSet × MapVector Nat) (seen : List Nat),
    (∀ t, t ∈ acc.1 ↔ t ∈ seen) → List.Nodup acc.1 →
    (∀ t, MapVector.find acc.2 t = if t ∈ seen then some (List.count t seen) else none) →
    List.Nodup (List.map Prod.fst acc.2) →
    (∀ t, t ∈ (List.foldl countOccurrence acc L).1 ↔ t ∈ seen ++ L) ∧
    List.Nodup (List.foldl countOccurrence acc L).1 ∧
    (∀ t, MapVector.find (List.foldl countOccurrence acc L).2 t =
      if t ∈ seen ++ L then some (List.count t (seen ++ L)) else none) ∧
    List.Nodup (List.map Prod.fst (List.foldl countOccurrence acc L).2) := by
  induction L with
  | nil =>
    intro acc seen h1 h2 h3 h4
    simpa using ⟨h1, h2, h3, h4⟩
  | cons x L ih =>
    intro acc seen h1 h2 h3 h4
    obtain ⟨g1, g2, g3, g4⟩ := countOccurrence_spec acc seen x h1 h2 h3 h4
    have := ih (countOccurrence acc x) (seen ++ [x]) g1 g2 g3 g4
    simpa [List.append_assoc] using this

theorem collectPreds_spec (dom : Dominators) (preds : List Nat) :
    (∀ t, t ∈ (collectPreds dom preds).1 ↔
      t ∈ List.flatMap preds (MapVector.index dom)) ∧
    List.Nodup (collectPreds dom preds).1 ∧
    (∀ t, MapVector.find (collectPreds dom preds).2 t =
      if t ∈ List.flatMap preds (MapVector.index dom) then
        some (List.count t (List.flatMap preds (MapVector.index dom))) else none) ∧
    List.Nodup (List.map Prod.fst (collectPreds dom preds).2) := by
  have key : ∀ (preds : List Nat) (acc : BBPtrSet × MapVector Nat) (seen : List Nat),
      (∀ t, t ∈ acc.1 ↔ t ∈ seen) → List.Nodup acc.1 →
      (∀ t, MapVector.find acc.2 t = if t ∈ seen then some (List.count t seen) else none) →
      List.Nodup (List.map Prod.fst acc.2) →
      (∀ t, t ∈ (List.foldl (fun acc PI =>
          List.foldl countOccurrence acc (MapVector.index dom PI)) acc preds).1 ↔
        t ∈ seen ++ List.flatMap preds (MapVector.index dom)) ∧
      List.Nodup (List.foldl (fun acc PI =>
          List.foldl countOccurrence acc (MapVector.index dom PI)) acc preds).1 ∧
      (∀ t, MapVector.find (List.foldl (fun acc PI =>
          List.foldl countOccurrence acc (MapVector.index dom PI)) acc preds).2 t =
        if t ∈ seen ++ List.flatMap preds (MapVector.index dom) then
          some (List.count t (seen ++ List.flatMap preds (MapVector.index dom))) else none) ∧
      List.Nodup (List.map Prod.fst (List.foldl (fun acc PI =>
          List.foldl countOccurrence acc (MapVector.index dom PI)) acc preds).2) := by
    intro preds
    induction preds with
    | nil =>
      intro acc seen h1 h2 h3 h4
      simpa using ⟨h1, h2, h3, h4⟩
    | cons p preds ih =>
      intro acc seen h1 h2 h3 h4
      obtain ⟨g1, g2, g3, g4⟩ :=
        foldl_countOccurrence_spec (MapVector.index dom p) acc seen h1 h2 h3 h4
      have := ih _ (seen ++ MapVector.index dom p) g1 g2 g3 g4
      simpa [List.append_assoc] using this
  have := key preds ([], []) [] (by simp) (by simp) (by simp [MapVector.find]) (by simp)
  simpa [collectPreds] using this

/-- Counting members of duplicate-free sets: the counter of `t` never exceeds
the number of sets and reaches it exactly when `t` is in all of them. -/
theorem count_flatMap_nodup (f : Nat → List Nat) (hf : ∀ p, List.Nodup (f p)) (t : Nat) :
    ∀ preds : List Nat, List.count t (List.flatMap preds f) ≤ preds.length ∧
      (List.count t (List.flatMap preds f) = preds.length ↔ ∀ p ∈ preds, t ∈ f p) := by
  intro preds
  induction preds with
  | nil => simp
  | cons p preds ih =>
    obtain ⟨ih1, ih2⟩ := ih
    simp only [List.flatMap_cons, List.count_append, List.length_cons, List.mem_cons,
      forall_eq_or_imp]
    by_cases hp : t ∈ f p
    · have hc : List.count t (f p) = 1 := List.count_eq_one_of_mem (hf p) hp
      rw [hc]
      refine ⟨by omega, ?_⟩
      rw [← ih2]
      constructor
      · intro h; exact ⟨hp, by omega⟩
      · intro h; omega
    · have hc : List.count t (f p) = 0 := List.count_eq_zero.2 hp
      rw [hc]
      refine ⟨by omega, ?_⟩
      constructor
      · intro h; omega
      · intro h; exact absurd h.1 hp

theorem foldl_erase_spec (n : Nat) (M : MapVector Nat) :
    ∀ S : BBPtrSet,
    (∀ t, t ∈ List.foldl (fun NewSet ITMap =>
        if ITMap.2 < n then SmallPtrSet.erase NewSet ITMap.1 else NewSet) S M ↔
      t ∈ S ∧ ∀ c, (t, c) ∈ M → ¬ c < n) ∧
    (List.Nodup S → List.Nodup (List.foldl (fun NewSet ITMap =>
        if ITMap.2 < n then SmallPtrSet.erase NewSet ITMap.1 else NewSet) S M)) := by
  induction M with
  | nil => intro S; simp
  | cons e M ih =>
    intro S
    obtain ⟨k, c⟩ := e
    simp only [List.foldl_cons, List.mem_cons, Prod.mk.injEq]
    by_cases hc : c < n
    · simp only [hc, if_true]
      obtain ⟨i1, i2⟩ := ih (SmallPtrSet.erase S k)
      refine ⟨?_, fun hS => i2 (SmallPtrSet.nodup_erase _ _ hS)⟩
      intro t
      rw [i1, SmallPtrSet.mem_erase]
      constructor
      · rintro ⟨⟨h1, h2⟩, h3⟩
        refine ⟨h1, ?_⟩
        rintro c' (⟨e1, _⟩ | h)
        · exact absurd e1 h2
        · exact h3 c' h
      · rintro ⟨h1, h2⟩
        refine ⟨⟨h1, ?_⟩, fun c' h => h2 c' (Or.inr h)⟩
        intro e1
        exact h2 c (Or.inl ⟨e1, rfl⟩) hc
    · simp only [hc, if_false]
      obtain ⟨i1, i2⟩ := ih S
      refine ⟨?_, i2⟩
      intro t
      rw [i1]
      constructor
      · rintro ⟨h1, h3⟩
        refine ⟨h1, ?_⟩
        rintro c' (⟨_, e2⟩ | h)
        · subst e2; exact hc
        · exact h3 c' h
      · rintro ⟨h1, h2⟩
        exact ⟨h1, fun c' h => h2 c' (Or.inr h)⟩

/-- The set computed by the counting pass is the intersection of the
predecessors' sets (empty when there is no predecessor) with `BB` added. -/
theorem mem_newDomSet (F : Function) (dom : Dominators) (BB : Nat)
    (hdom : ∀ p, List.Nodup (MapVector.index dom p)) (t : Nat) :
    t ∈ newDomSet F dom BB ↔
      t = BB ∨ (F.preds BB ≠ [] ∧ ∀ p ∈ F.preds BB, t ∈ MapVector.index dom p) := by
  obtain ⟨c1, _, c3, c4⟩ := collectPreds_spec dom (F.preds BB)
  obtain ⟨k1, k2⟩ := count_flatMap_nodup (MapVector.index dom) hdom t (F.preds BB)
  simp only [newDomSet]
  rw [SmallPtrSet.mem_insert, (foldl_erase_spec _ _ _).1, c1]
  constructor
  · rintro (⟨hm, hc⟩ | h)
    · right
      have hf := c3 t
      rw [if_pos hm] at hf
      have := hc _ (MapVector.mem_of_find _ _ _ hf)
      have hall := k2.1 (by omega)
      refine ⟨?_, hall⟩
      intro he
      rw [he] at hm
      simp at hm
    · exact Or.inl h
  · rintro (h | ⟨hne, hall⟩)
    · exact Or.inr h
    · left
      have hm : t ∈ List.flatMap (F.preds BB) (MapVector.index dom) := by
        cases hp : F.preds BB with
        | nil => exact absurd hp hne
        | cons p ps =>
          rw [hp] at hall
          simp only [List.flatMap_cons, List.mem_append]
          exact Or.inl (hall p (List.mem_cons_self _ _))
      refine ⟨hm, ?_⟩
      intro c hc
      have hf := c3 t
      rw [if_pos hm, MapVector.find_of_mem _ c4 _ _ hc] at hf
      have := k2.2 hall
      simp only [Option.some.injEq] at hf
      omega

theorem nodup_newDomSet (F : Function) (dom : Dominators) (BB : Nat) :
    List.Nodup (newDomSet F dom BB) := by
  obtain ⟨_, c2, _, _⟩ := collectPreds_spec dom (F.preds BB)
  exact SmallPtrSet.nodup_insert _ _ ((foldl_erase_spec _ _ _).2 c2)


/-! ## The initial dominator map -/

theorem mem_foldl_insert {α : Type} [DecidableEq α] (L : List α) :
    ∀ (S : SmallPtrSet α) (x : α),
      x ∈ List.foldl SmallPtrSet.insert S L ↔ x ∈ S ∨ x ∈ L := by
  induction L with
  | nil => intro S x; simp
  | cons y L ih =>
    intro S x
    simp only [List.foldl_cons, ih, SmallPtrSet.mem_insert, List.mem_cons]
    constructor
    · rintro ((h | h) | h)
      · exact Or.inl h
      · exact Or.inr (Or.inl h)
      · exact Or.inr (Or.inr h)
    · rintro (h | h | h)
      · exact Or.inl (Or.inl h)
      · exact Or.inl (Or.inr h)
      · exact Or.inr h

theorem nodup_foldl_insert {α : Type} [DecidableEq α] (L : List α) :
    ∀ (S : SmallPtrSet α), List.Nodup S → List.Nodup (List.foldl SmallPtrSet.insert S L) := by
  induction L with
  | nil => intro S h; simpa using h
  | cons y L ih =>
    intro S h
    exact ih _ (SmallPtrSet.nodup_insert _ _ h)

theorem MapVector.keys_insert_of_find_none {V : Type} (M : MapVector V) (k : Nat) (v : V)
    (h : MapVector.find M k = none) :
    List.map Prod.fst (MapVector.insert M k v) = List.map Prod.fst M ++ [k] := by
  simp [MapVector.insert, h]

theorem find_initDom_aux (U : BBPtrSet) (n : Nat) :
    ∀ k, MapVector.find (List.foldl
      (fun (dom : Dominators) BB =>
        if BB = 0 then MapVector.insert dom BB (SmallPtrSet.insert [] BB)
        else MapVector.insert dom BB U) [] (List.range n)) k =
      if k < n then some (if k = 0 then [0] else U) else none := by
  induction n with
  | zero => intro k; simp [MapVector.find]
  | succ n ih =>
    intro k
    rw [List.range_succ, List.foldl_append]
    simp only [List.foldl_cons, List.foldl_nil]
    by_cases h0 : n = 0
    · subst h0
      simp only [if_true]
      rw [MapVector.find_insert, ih]
      by_cases hk : k = 0
      · subst hk; simp [SmallPtrSet.insert]
      · have : ¬ k < 1 := by omega
        simp [hk, this]
    · simp only [h0, if_false]
      rw [MapVector.find_insert, ih]
      by_cases hk : k < n
      · have : k < n + 1 := by omega
        simp [hk, this]
      · by_cases hk' : k = n
        · subst hk'; simp [h0]
        · have : ¬ k < n + 1 := by omega
          simp [hk, hk', this]

theorem find_initDom (F : Function) (k : Nat) :
    MapVector.find (initDom F) k =
      if k < F.size then
        some (if k = 0 then [0] else List.foldl SmallPtrSet.insert [] (List.range F.size))
      else none := by
  unfold initDom
  exact find_initDom_aux _ F.size k

theorem keys_initDom_aux (U : BBPtrSet) (n : Nat) :
    List.map Prod.fst (List.foldl
      (fun (dom : Dominators) BB =>
        if BB = 0 then MapVector.insert dom BB (SmallPtrSet.insert [] BB)
        else MapVector.insert dom BB U) [] (List.range n)) = List.range n := by
  induction n with
  | zero => simp
  | succ n ih =>
    have hn := find_initDom_aux U n n
    simp only [lt_self_iff_false, if_false] at hn
    rw [List.range_succ, List.foldl_append]
    simp only [List.foldl_cons, List.foldl_nil]
    split
    · rw [MapVector.keys_insert_of_find_none _ _ _ hn, ih]
    · rw [MapVector.keys_insert_of_find_none _ _ _ hn, ih]

theorem keys_initDom (F : Function) :
    List.map Prod.fst (initDom F) = List.range F.size := by
  unfold initDom
  exact keys_initDom_aux _ F.size

theorem index_initDom (F : Function) (k : Nat) :
    MapVector.index (initDom F) k =
      if k < F.size then
        (if k = 0 then [0] else List.foldl SmallPtrSet.insert [] (List.range F.size))
      else [] := by
  unfold MapVector.index
  rw [find_initDom]
  split <;> rfl


/-! ## Invariants of the dominator iteration -/

theorem mem_tail_range (N b : Nat) : b ∈ (List.range N).tail ↔ 0 < b ∧ b < N := by
  rw [List.tail_range, List.mem_range']
  constructor
  · rintro ⟨i, hi, rfl⟩; omega
  · rintro ⟨h1, h2⟩; exact ⟨b - 1, by omega, by omega⟩

theorem domInv_initDom (F : Function) : DomInv F (initDom F) := by
  have hU : ∀ x, x ∈ List.foldl SmallPtrSet.insert ([] : BBPtrSet) (List.range F.size) ↔
      x < F.size := by
    intro x; rw [mem_foldl_insert]; simp
  have hidx := index_initDom F
  have hnd : ∀ k, List.Nodup (MapVector.index (initDom F) k) := by
    intro k
    rw [hidx]
    split
    · split
      · simp
      · exact nodup_foldl_insert _ _ List.nodup_nil
    · simp
  have hrefl : ∀ k, k < F.size → k ∈ MapVector.index (initDom F) k := by
    intro k hk
    rw [hidx, if_pos hk]
    split
    · rename_i h0; simp [h0]
    · exact (hU k).2 hk
  refine ⟨keys_initDom F, hnd, ?_, hrefl, ?_, ?_⟩
  · intro h
    rw [hidx]; simp [h]
  · intro k x hx
    rw [hidx] at hx
    split at hx
    · rename_i hk
      split at hx
      · simp at hx; omega
      · exact (hU x).1 hx
    · simp at hx
  · intro b hb0 hbN t ht
    have hb : ¬ b = 0 := by omega
    rw [hidx, if_pos hbN, if_neg hb, hU]
    rw [mem_newDomSet F _ b hnd] at ht
    rcases ht with rfl | ⟨hne, hall⟩
    · exact hbN
    · cases hp : F.preds b with
      | nil => exact absurd hp hne
      | cons p ps =>
        have := hall p (by rw [hp]; exact List.mem_cons_self _ _)
        rw [hidx] at this
        split at this
        · split at this
          · simp at this; omega
          · exact (hU t).1 this
        · simp at this

/-- A visit that replaces the set of `BB` puts a subset in its place. -/
theorem domInv_assign (F : Function) (dom : Dominators) (BB : Nat) (h : DomInv F dom)
    (hb0 : 0 < BB) (hbN : BB < F.size) :
    DomInv F (MapVector.assign dom BB (newDomSet F dom BB)) := by
  have hidx := MapVector.index_assign dom BB
  have hsub : ∀ p t, t ∈ MapVector.index (MapVector.assign dom BB (newDomSet F dom BB)) p →
      t ∈ MapVector.index dom p := by
    intro p t ht
    rw [hidx] at ht
    split at ht
    · rename_i hp; subst hp; exact h.desc _ hb0 hbN t ht
    · exact ht
  have hnd : ∀ k, List.Nodup (MapVector.index (MapVector.assign dom BB (newDomSet F dom BB)) k) := by
    intro k
    rw [hidx]
    split
    · exact nodup_newDomSet F dom BB
    · exact h.nodup k
  have hrefl : ∀ k, k < F.size →
      k ∈ MapVector.index (MapVector.assign dom BB (newDomSet F dom BB)) k := by
    intro k hk
    rw [hidx]
    split
    · rename_i hkb; subst hkb
      exact (mem_newDomSet F dom k h.nodup k).2 (Or.inl rfl)
    · exact h.refl k hk
  refine ⟨?_, hnd, ?_, hrefl, ?_, ?_⟩
  · rw [MapVector.keys_assign, h.keys]
    simp [hbN]
  · intro h0
    rw [hidx]
    have : ¬ 0 = BB := by omega
    simp only [this, if_false]
    exact h.entry h0
  · intro k x hx
    exact h.bound k x (hsub k x hx)
  · intro b hb0' hbN' t ht
    rw [mem_newDomSet F _ b hnd] at ht
    rcases ht with rfl | ⟨hne, hall⟩
    · exact hrefl _ hbN'
    · have hold : t ∈ newDomSet F dom b :=
        (mem_newDomSet F dom b h.nodup t).2 (Or.inr ⟨hne, fun p hp => hsub p t (hall p hp)⟩)
      rw [hidx]
      split
      · rename_i hbb; subst hbb; exact hold
      · exact h.desc b hb0' hbN' t hold

theorem length_lt_of_subset_ne {α : Type} [DecidableEq α] (A B : List α)
    (hA : List.Nodup A) (hB : List.Nodup B) (hsub : ∀ x, x ∈ B → x ∈ A)
    (hne : ¬ ∀ x, x ∈ A ↔ x ∈ B) : B.length < A.length := by
  rw [← List.toFinset_card_of_nodup hA, ← List.toFinset_card_of_nodup hB]
  apply Finset.card_lt_card
  rw [Finset.ssubset_iff_subset_ne]
  refine ⟨fun x hx => by simpa using hsub x (by simpa using hx), ?_⟩
  intro he
  apply hne
  intro x
  have : x ∈ B.toFinset ↔ x ∈ A.toFinset := by rw [he]
  simpa using this.symm

theorem domMeasure_assign_lt (F : Function) (dom : Dominators) (BB : Nat) (h : DomInv F dom)
    (hb0 : 0 < BB) (hbN : BB < F.size)
    (hne : SmallPtrSet.ne (MapVector.index dom BB) (newDomSet F dom BB) = true) :
    domMeasure F (MapVector.assign dom BB (newDomSet F dom BB)) < domMeasure F dom := by
  unfold domMeasure
  apply List.sum_lt_sum
  · intro k _
    rw [MapVector.index_assign]
    split
    · rename_i hk; subst hk
      have := length_lt_of_subset_ne _ _ (h.nodup k) (nodup_newDomSet F dom k)
        (h.desc k hb0 hbN) ((SmallPtrSet.ne_eq_true_iff _ _).1 hne)
      omega
    · exact le_refl _
  · refine ⟨BB, List.mem_range.2 hbN, ?_⟩
    rw [MapVector.index_assign]
    simp only [if_true]
    exact length_lt_of_subset_ne _ _ (h.nodup BB) (nodup_newDomSet F dom BB)
      (h.desc BB hb0 hbN) ((SmallPtrSet.ne_eq_true_iff _ _).1 hne)

/-- One sweep keeps the invariants, shrinks the measure when it reports a
change, and otherwise leaves the map as it was, every non-entry block's set
being equal to its recomputation. -/
theorem domSweep_spec (F : Function) (P : Dominators → Prop)
    (hP : ∀ dom BB, DomInv F dom → P dom → 0 < BB → BB < F.size →
      P (MapVector.assign dom BB (newDomSet F dom BB)))
    (dom : Dominators) (h1 : DomInv F dom) (h2 : P dom) :
    (DomInv F (domSweep F dom).1 ∧ P (domSweep F dom).1) ∧
    ((domSweep F dom).2 = true → domMeasure F (domSweep F dom).1 < domMeasure F dom) ∧
    ((domSweep F dom).2 = false → (domSweep F dom).1 = dom ∧
      ∀ b, 0 < b → b < F.size →
        SmallPtrSet.ne (MapVector.index dom b) (newDomSet F dom b) = false) := by
  obtain ⟨i1, _, i3, i4⟩ := foldl_visit_spec (domVisit F)
    (fun d => DomInv F d ∧ P d) (domMeasure F)
    (fun d b => SmallPtrSet.ne (MapVector.index d b) (newDomSet F d b) = false)
    (List.range F.size).tail
    (by
      intro st b hb hinv
      obtain ⟨hb0, hbN⟩ := (mem_tail_range _ _).1 hb
      cases hne : SmallPtrSet.ne (MapVector.index st.1 b) (newDomSet F st.1 b) with
      | false =>
        left
        exact ⟨by simp [domVisit, hne], hne⟩
      | true =>
        right
        have hv : domVisit F st b = (MapVector.assign st.1 b (newDomSet F st.1 b), true) := by
          simp [domVisit, hne]
        rw [hv]
        exact ⟨rfl, ⟨domInv_assign F st.1 b hinv.1 hb0 hbN, hP st.1 b hinv.1 hinv.2 hb0 hbN⟩,
          domMeasure_assign_lt F st.1 b hinv.1 hb0 hbN hne⟩)
    (dom, false) ⟨h1, h2⟩
  refine ⟨i1, ?_, ?_⟩
  · intro hc
    rcases i3 hc with h | h
    · cases h
    · exact h
  · intro hc
    obtain ⟨j1, j2⟩ := i4 hc
    refine ⟨by rw [domSweep, j1], ?_⟩
    intro b hb0 hbN
    exact j2 b ((mem_tail_range _ _).2 ⟨hb0, hbN⟩)

theorem domMeasure_le (F : Function) (dom : Dominators) (h : DomInv F dom) :
    domMeasure F dom ≤ F.size * F.size := by
  unfold domMeasure
  have hlen : ∀ k, (MapVector.index dom k).length ≤ F.size := by
    intro k
    rw [← List.toFinset_card_of_nodup (h.nodup k)]
    calc (MapVector.index dom k).toFinset.card ≤ (Finset.range F.size).card := by
          apply Finset.card_le_card
          intro x hx
          simp only [List.mem_toFinset] at hx
          exact Finset.mem_range.2 (h.bound k x hx)
      _ = F.size := Finset.card_range _
  have := List.sum_le_card_nsmul (List.map (fun k => (MapVector.index dom k).length)
    (List.range F.size)) F.size (by
      intro x hx
      obtain ⟨k, _, rfl⟩ := List.mem_map.1 hx
      exact hlen k)
  simpa using this

/-- The dominator iteration ends within its fuel, at a map that satisfies the
invariants and that a further sweep leaves unchanged. -/
theorem domLoop_spec (F : Function) (P : Dominators → Prop) (h0 : P (initDom F))
    (hP : ∀ dom BB, DomInv F dom → P dom → 0 < BB → BB < F.size →
      P (MapVector.assign dom BB (newDomSet F dom BB))) :
    ∃ r, whileChanged (domSweep F) (domFuel F) (initDom F) = some r ∧
      DomInv F r ∧ P r ∧ domSweep F r = (r, false) ∧
      ∀ b, 0 < b → b < F.size → ∀ t,
        t ∈ MapVector.index r b ↔ t ∈ newDomSet F r b := by
  obtain ⟨r, s', hr, ⟨hs1, hs2⟩, hsw⟩ := whileChanged_terminates (domSweep F)
    (fun d => DomInv F d ∧ P d) (domMeasure F)
    (fun s hs => (domSweep_spec F P hP s hs.1 hs.2).1)
    (fun s hs => (domSweep_spec F P hP s hs.1 hs.2).2.1)
    (domFuel F) (initDom F) ⟨domInv_initDom F, h0⟩
    (by have := domMeasure_le F _ (domInv_initDom F); unfold domFuel; omega)
  have hc : (domSweep F s').2 = false := by rw [hsw]
  obtain ⟨e1, e2⟩ := (domSweep_spec F P hP s' hs1 hs2).2.2 hc
  have hrs : r = s' := by rw [← e1, hsw]
  subst hrs
  refine ⟨r, hr, hs1, hs2, hsw, ?_⟩
  intro b hb0 hbN t
  exact (SmallPtrSet.ne_eq_false_iff _ _).1 (e2 b hb0 hbN) t


/-! ## Dominance on paths -/

theorem CFGPath.start_mem {F : Function} {a m : Nat} {l : List Nat} (h : CFGPath F a m l) :
    a ∈ l := by
  induction h with
  | single _ => simp
  | step _ _ _ ih => exact List.mem_append_left _ ih

theorem CFGPath.end_lt {F : Function} {a m : Nat} {l : List Nat} (h : CFGPath F a m l) :
    m < F.size := by
  cases h with
  | single h => exact h
  | step _ h _ => exact h

theorem CFGPath.mem_lt {F : Function} {a m : Nat} {l : List Nat} (h : CFGPath F a m l) :
    ∀ x ∈ l, x < F.size := by
  induction h with
  | single h => intro x hx; simp at hx; subst hx; exact h
  | step _ hm _ ih =>
    intro x hx
    rcases List.mem_append.1 hx with hx | hx
    · exact ih x hx
    · simp at hx; subst hx; exact hm

/-- Every member of a set of a stable map lies on every path from a root. -/
theorem mem_path_of_stable (F : Function) (dom : Dominators) (h : DomInv F dom)
    (hst : ∀ b, 0 < b → b < F.size → ∀ t,
      t ∈ MapVector.index dom b ↔ t ∈ newDomSet F dom b)
    (r m : Nat) (l : List Nat) (hr : IsRoot F r) (hp : CFGPath F r m l) :
    ∀ n, n ∈ MapVector.index dom m → n ∈ l := by
  induction hp with
  | single hlt =>
    intro n hn
    by_cases h0 : r = 0
    · subst h0
      rw [h.entry hlt] at hn
      exact hn
    · rcases hr.2 with h1 | h1
      · exact absurd h1 h0
      · rw [hst r (by omega) hlt, mem_newDomSet F dom r h.nodup] at hn
        rcases hn with rfl | ⟨hne, _⟩
        · simp
        · exact absurd h1 hne
  | step hq hm hpm ih =>
    rename_i p m l
    intro n hn
    by_cases h0 : m = 0
    · subst h0
      rw [h.entry hm] at hn
      simp only [List.mem_singleton] at hn
      subst hn
      simp
    · rw [hst m (by omega) hm, mem_newDomSet F dom m h.nodup] at hn
      rcases hn with rfl | ⟨_, hall⟩
      · simp
      · exact List.mem_append_left _ (ih n (hall p hpm))

/-- The property kept by the iteration on a function with well-formed
predecessor lists: a block on every path from every root to `m` is in the set
of `m`. -/
theorem multiDom_sound_init (F : Function) :
    ∀ n m, n < F.size → m < F.size → MultiDominates F n m →
      n ∈ MapVector.index (initDom F) m := by
  intro n m hn hm hd
  rw [index_initDom, if_pos hm]
  split
  · rename_i h0; subst h0
    have := hd 0 [0] ⟨hm, Or.inl rfl⟩ (CFGPath.single hm)
    exact this
  · rw [mem_foldl_insert]; right; exact List.mem_range.2 hn

theorem multiDom_sound_assign (F : Function) (hF : F.PredsInRange) (dom : Dominators) (BB : Nat)
    (h : DomInv F dom)
    (hs : ∀ n m, n < F.size → m < F.size → MultiDominates F n m → n ∈ MapVector.index dom m)
    (_hb0 : 0 < BB) (hbN : BB < F.size) :
    ∀ n m, n < F.size → m < F.size → MultiDominates F n m →
      n ∈ MapVector.index (MapVector.assign dom BB (newDomSet F dom BB)) m := by
  intro n m hn hm hd
  rw [MapVector.index_assign]
  split
  · rename_i hmb; subst hmb
    rw [mem_newDomSet F dom m h.nodup]
    by_cases hnm : n = m
    · exact Or.inl hnm
    · right
      have hne : F.preds m ≠ [] := by
        intro he
        have := hd m [m] ⟨hm, Or.inr he⟩ (CFGPath.single hm)
        simp at this
        exact hnm this
      refine ⟨hne, ?_⟩
      intro p hp
      apply hs n p hn (hF m hm p hp)
      intro r l hr hl
      have := hd r (l ++ [m]) hr (CFGPath.step hl hm hp)
      rcases List.mem_append.1 this with h1 | h1
      · exact h1
      · simp at h1; exact absurd h1 hnm
  · exact hs n m hn hm hd

/-- The returned map is the multi-root dominance relation: on a function with
well-formed predecessor lists, block `n` is in the set of block `m` exactly
when `n` lies on every path to `m` from the entry and from every block without
predecessors. -/
theorem runOnFunction_multiDom (F : Function) (hF : F.PredsInRange) :
    ∃ res, DominatorsAnalysis.runOnFunction F = some res ∧
      ∀ n m, n < F.size → m < F.size →
        (n ∈ MapVector.index res.dom m ↔ MultiDominates F n m) := by
  obtain ⟨r, hr, hinv, hs, _, hst⟩ := domLoop_spec F
    (fun dom => ∀ n m, n < F.size → m < F.size → MultiDominates F n m →
      n ∈ MapVector.index dom m)
    (multiDom_sound_init F)
    (fun dom BB h hs hb0 hbN => multiDom_sound_assign F hF dom BB h hs hb0 hbN)
  refine ⟨⟨r⟩, by simp [DominatorsAnalysis.runOnFunction, hr], ?_⟩
  intro n m hn hm
  constructor
  · intro hmem r' l hr' hl
    exact mem_path_of_stable F r hinv hst r' m l hr' hl n hmem
  · exact hs n m hn hm

theorem getBBDominators_eq (F : Function) (res : ResultDominators) (h : DomInv F res.dom)
    (k : Nat) (hk : k < F.size) :
    res.getBBDominators k = some (MapVector.index res.dom k) := by
  unfold ResultDominators.getBBDominators MapVector.index
  cases hf : MapVector.find res.dom k with
  | some S => rfl
  | none =>
    have := (MapVector.find_eq_none_iff _ _).1 hf
    rw [h.keys] at this
    exact absurd (List.mem_range.2 hk) this

/-- The iteration returns, at a map with the invariants that one more sweep
leaves unchanged. -/
theorem runOnFunction_spec (F : Function) :
    ∃ res, DominatorsAnalysis.runOnFunction F = some res ∧
      whileChanged (domSweep F) (domFuel F) (initDom F) = some res.dom ∧
      DomInv F res.dom ∧ domSweep F res.dom = (res.dom, false) ∧
      ∀ b, 0 < b → b < F.size → ∀ t,
        t ∈ MapVector.index res.dom b ↔ t ∈ newDomSet F res.dom b := by
  obtain ⟨r, hr, hinv, _, hsw, hst⟩ := domLoop_spec F (fun _ => True) trivial
    (fun _ _ _ _ _ _ => trivial)
  exact ⟨⟨r⟩, by simp [DominatorsAnalysis.runOnFunction, hr], hr, hinv, hsw, hst⟩

/-! ## The claims on the dominator analysis -/

/-- C1, evaluated at a function with an unreachable block that branches into
reachable code: block 2 is reachable from the entry, the entry lies on every
path from the entry to block 2, the predecessor lists are well-formed, and the
set returned for block 2 is `{2}`, without the entry. -/
theorem C1_unreachable_pred_drops_entry :
    deadPredFunction.PredsInRange ∧
    Reachable deadPredFunction 2 ∧
    Dominates deadPredFunction 0 2 ∧
    DominatorsAnalysis.runOnFunction deadPredFunction =
      some ⟨[(0, [0]), (1, [1]), (2, [2])]⟩ ∧
    (∀ res, DominatorsAnalysis.runOnFunction deadPredFunction = some res →
      ∃ S, res.getBBDominators 2 = some S ∧ 0 ∉ S) := by
  have hrun : DominatorsAnalysis.runOnFunction deadPredFunction =
      some ⟨[(0, [0]), (1, [1]), (2, [2])]⟩ := by decide
  refine ⟨?_, ?_, ?_, hrun, ?_⟩
  · decide
  · exact ⟨[0] ++ [2], CFGPath.step (CFGPath.single (by decide)) (by decide) (by decide)⟩
  · intro l hl
    exact hl.start_mem
  · intro res hres
    rw [hrun] at hres
    cases hres
    exact ⟨[2], by decide, by decide⟩


/-- C2: when every block is reachable from the entry (and the predecessor
lists are well-formed), the set returned for a block `m` holds exactly the
blocks that lie on every path from the entry to `m`; in particular it holds
`m` itself. -/
theorem C2_dominators_of_reachable_cfg (F : Function) (hF : F.PredsInRange)
    (hall : ∀ m, m < F.size → Reachable F m) :
    ∃ res, DominatorsAnalysis.runOnFunction F = some res ∧
      ∀ m, m < F.size → ∃ S, res.getBBDominators m = some S ∧ m ∈ S ∧
        ∀ n, n ∈ S ↔ Dominates F n m := by
  obtain ⟨res, hres, hinv, hs, _, hst⟩ := domLoop_spec F
    (fun dom => ∀ n m, n < F.size → m < F.size → MultiDominates F n m →
      n ∈ MapVector.index dom m)
    (multiDom_sound_init F)
    (fun dom BB h hs hb0 hbN => multiDom_sound_assign F hF dom BB h hs hb0 hbN)
  refine ⟨⟨res⟩, by simp [DominatorsAnalysis.runOnFunction, hres], ?_⟩
  intro m hm
  refine ⟨MapVector.index res m, getBBDominators_eq F ⟨res⟩ hinv m hm, hinv.refl m hm, ?_⟩
  intro n
  have h0 : 0 < F.size := by omega
  constructor
  · intro hmem l hl
    exact mem_path_of_stable F res hinv hst 0 m l ⟨h0, Or.inl rfl⟩ hl n hmem
  · intro hd
    obtain ⟨l, hl⟩ := hall m hm
    have hn : n < F.size := hl.mem_lt n (hd l hl)
    apply hs n m hn hm
    intro r l' hr hl'
    have hr0 : r = 0 := by
      rcases hr.2 with h | h
      · exact h
      · obtain ⟨lr, hlr⟩ := hall r hr.1
        cases hlr with
        | single _ => rfl
        | step _ _ hp => rw [h] at hp; cases hp
    subst hr0
    exact hd l' hl'

/-- C2 at the diamond. -/
theorem C2_dominators_of_reachable_cfg_witness :
    diamondFunction.PredsInRange ∧ (∀ m, m < diamondFunction.size → Reachable diamondFunction m) ∧
    ∃ res, DominatorsAnalysis.runOnFunction diamondFunction = some res ∧
      ∀ m, m < diamondFunction.size → ∃ S, res.getBBDominators m = some S ∧ m ∈ S ∧
        ∀ n, n ∈ S ↔ Dominates diamondFunction n m := by
  have hreach : ∀ m, m < diamondFunction.size → Reachable diamondFunction m := by
    intro m hm
    have hm' : m < 4 := hm
    have p0 : CFGPath diamondFunction 0 0 [0] := CFGPath.single (by decide)
    have p1 : CFGPath diamondFunction 0 1 ([0] ++ [1]) :=
      CFGPath.step p0 (by decide) (by decide)
    interval_cases m
    · exact ⟨_, p0⟩
    · exact ⟨_, p1⟩
    · exact ⟨_, CFGPath.step p0 (by decide) (by decide)⟩
    · exact ⟨_, CFGPath.step p1 (by decide) (by decide)⟩
  exact ⟨by decide, hreach, C2_dominators_of_reachable_cfg diamondFunction (by decide) hreach⟩

/-- C3: on a function with at least one block, the set returned for the entry
block is exactly `{entry}`. -/
theorem C3_entry_set_is_entry (F : Function) (h : 0 < F.size) :
    ∃ res, DominatorsAnalysis.runOnFunction F = some res ∧
      res.getBBDominators 0 = some [0] := by
  obtain ⟨res, hres, _, hinv, _, _⟩ := runOnFunction_spec F
  refine ⟨res, hres, ?_⟩
  rw [getBBDominators_eq F res hinv 0 h, hinv.entry h]

/-- C3 at the diamond. -/
theorem C3_entry_set_is_entry_witness :
    0 < diamondFunction.size ∧
    ∃ res, DominatorsAnalysis.runOnFunction diamondFunction = some res ∧
      res.getBBDominators 0 = some [0] :=
  ⟨by decide, C3_entry_set_is_entry diamondFunction (by decide)⟩

/-- C4: every block of the function is a member of the set returned for it. -/
theorem C4_dominator_reflexivity (F : Function) (n : Nat) (hn : n < F.size) :
    ∃ res, DominatorsAnalysis.runOnFunction F = some res ∧
      ∃ S, res.getBBDominators n = some S ∧ n ∈ S := by
  obtain ⟨res, hres, _, hinv, _, _⟩ := runOnFunction_spec F
  exact ⟨res, hres, _, getBBDominators_eq F res hinv n hn, hinv.refl n hn⟩

/-- C4 at the dead block of `deadPredFunction`. -/
theorem C4_dominator_reflexivity_witness :
    1 < deadPredFunction.size ∧
    ∃ res, DominatorsAnalysis.runOnFunction deadPredFunction = some res ∧
      ∃ S, res.getBBDominators 1 = some S ∧ 1 ∈ S :=
  ⟨by decide, C4_dominator_reflexivity deadPredFunction 1 (by decide)⟩

/-- C5: the returned map is a fixed point of the sweep.  One more sweep
returns the same map with `changed` false, and the set of every non-entry
block `n` with a predecessor has exactly the members of the intersection of its
predecessors' sets and `n` itself. -/
theorem C5_dominators_fixed_point (F : Function) (n : Nat) (h0 : 0 < n) (hn : n < F.size)
    (hp : F.preds n ≠ []) :
    ∃ res, DominatorsAnalysis.runOnFunction F = some res ∧
      domSweep F res.dom = (res.dom, false) ∧
      ∀ x, x ∈ MapVector.index res.dom n ↔
        (x = n ∨ ∀ p ∈ F.preds n, x ∈ MapVector.index res.dom p) := by
  obtain ⟨res, hres, _, hinv, hsw, hst⟩ := runOnFunction_spec F
  refine ⟨res, hres, hsw, ?_⟩
  intro x
  rw [hst n h0 hn x, mem_newDomSet F res.dom n hinv.nodup]
  constructor
  · rintro (h | ⟨_, h⟩)
    · exact Or.inl h
    · exact Or.inr h
  · rintro (h | h)
    · exact Or.inl h
    · exact Or.inr ⟨hp, h⟩

/-- C5 at the join block of the diamond. -/
theorem C5_dominators_fixed_point_witness :
    0 < 3 ∧ 3 < diamondFunction.size ∧ diamondFunction.preds 3 ≠ [] ∧
    ∃ res, DominatorsAnalysis.runOnFunction diamondFunction = some res ∧
      domSweep diamondFunction res.dom = (res.dom, false) ∧
      ∀ x, x ∈ MapVector.index res.dom 3 ↔
        (x = 3 ∨ ∀ p ∈ diamondFunction.preds 3, x ∈ MapVector.index res.dom p) :=
  ⟨by decide, by decide, by decide,
    C5_dominators_fixed_point diamondFunction 3 (by decide) (by decide) (by decide)⟩

/-- C6: the dominator iteration terminates on every function, unreachable
blocks or not: `runOnFunction` returns a result, and the loop returns that same
map for every amount of fuel from `domFuel F` on. -/
theorem C6_dominators_terminate (F : Function) :
    ∃ res, DominatorsAnalysis.runOnFunction F = some res ∧
      ∀ fuel, domFuel F ≤ fuel →
        whileChanged (domSweep F) fuel (initDom F) = some res.dom := by
  obtain ⟨res, hres, hloop, _, _, _⟩ := runOnFunction_spec F
  exact ⟨res, hres, fun fuel hf => whileChanged_mono _ _ _ _ _ hf hloop⟩


/-! ## The liveness transfer function -/

theorem mem_foldl_erase {α : Type} [DecidableEq α] (K : List α) :
    ∀ (S : SmallPtrSet α) (x : α),
      x ∈ List.foldl SmallPtrSet.erase S K ↔ x ∈ S ∧ x ∉ K := by
  induction K with
  | nil => intro S x; simp
  | cons y K ih =>
    intro S x
    simp only [List.foldl_cons, ih, SmallPtrSet.mem_erase, List.mem_cons, not_or]
    constructor
    · rintro ⟨⟨h1, h2⟩, h3⟩; exact ⟨h1, h2, h3⟩
    · rintro ⟨h1, h2, h3⟩; exact ⟨⟨h1, h2⟩, h3⟩

theorem mem_foldl_newLiveOut (UEVar VarKill LiveOut : BBLiveOutSet) (succs : List Nat) :
    ∀ (acc : ValueSet) (t : Value),
      t ∈ List.foldl
        (fun NewLiveOut SuccBB =>
          List.foldl SmallPtrSet.insert NewLiveOut
            (List.foldl SmallPtrSet.insert
              (List.foldl SmallPtrSet.erase
                (List.foldl SmallPtrSet.insert [] (MapVector.index LiveOut SuccBB))
                (MapVector.index VarKill SuccBB))
              (MapVector.index UEVar SuccBB)))
        acc succs ↔
      t ∈ acc ∨ ∃ s ∈ succs,
        (t ∈ MapVector.index LiveOut s ∧ t ∉ MapVector.index VarKill s) ∨
          t ∈ MapVector.index UEVar s := by
  induction succs with
  | nil => intro acc t; simp
  | cons s succs ih =>
    intro acc t
    simp only [List.foldl_cons, ih, mem_foldl_insert, mem_foldl_erase, List.mem_cons,
      List.not_mem_nil, false_or, exists_eq_or_imp]
    constructor
    · rintro ((h | h) | h)
      · exact Or.inl h
      · exact Or.inr (Or.inl h)
      · exact Or.inr (Or.inr h)
    · rintro (h | h | h)
      · exact Or.inl (Or.inl h)
      · exact Or.inl (Or.inr h)
      · exact Or.inr h

theorem nodup_foldl_newLiveOut (UEVar VarKill LiveOut : BBLiveOutSet) (succs : List Nat) :
    ∀ (acc : ValueSet), List.Nodup acc →
      List.Nodup (List.foldl
        (fun NewLiveOut SuccBB =>
          List.foldl SmallPtrSet.insert NewLiveOut
            (List.foldl SmallPtrSet.insert
              (List.foldl SmallPtrSet.erase
                (List.foldl SmallPtrSet.insert [] (MapVector.index LiveOut SuccBB))
                (MapVector.index VarKill SuccBB))
              (MapVector.index UEVar SuccBB)))
        acc succs) := by
  induction succs with
  | nil => intro acc h; simpa using h
  | cons s succs ih =>
    intro acc h
    simp only [List.foldl_cons]
    exact ih _ (nodup_foldl_insert _ _ h)

/-- The recomputed set is the union, over the successors, of the
successor's `LiveOut` without its `VarKill` and with its `UEVar`. -/
theorem mem_newLiveOut (F : Function) (UEVar VarKill LiveOut : BBLiveOutSet) (BB : Nat)
    (t : Value) :
    t ∈ newLiveOut F UEVar VarKill LiveOut BB ↔
      ∃ s ∈ F.succs BB,
        (t ∈ MapVector.index LiveOut s ∧ t ∉ MapVector.index VarKill s) ∨
          t ∈ MapVector.index UEVar s := by
  unfold newLiveOut
  rw [mem_foldl_newLiveOut]
  simp

theorem nodup_newLiveOut (F : Function) (UEVar VarKill LiveOut : BBLiveOutSet) (BB : Nat) :
    List.Nodup (newLiveOut F UEVar VarKill LiveOut BB) :=
  nodup_foldl_newLiveOut _ _ _ _ _ List.nodup_nil

/-! ## Maps filled block by block -/

theorem find_foldl_insert_range {V : Type} (f : Nat → V) (n : Nat) :
    ∀ k, MapVector.find
      (List.foldl (fun (M : MapVector V) BB => MapVector.insert M BB (f BB)) [] (List.range n)) k =
      if k < n then some (f k) else none := by
  induction n with
  | zero => intro k; simp [MapVector.find]
  | succ n ih =>
    intro k
    rw [List.range_succ, List.foldl_append]
    simp only [List.foldl_cons, List.foldl_nil]
    rw [MapVector.find_insert, ih]
    by_cases hk : k < n
    · have : k < n + 1 := by omega
      simp [hk, this]
    · by_cases hk' : k = n
      · subst hk'; simp
      · have : ¬ k < n + 1 := by omega
        simp [hk, hk', this]

theorem keys_foldl_insert_range {V : Type} (f : Nat → V) (n : Nat) :
    List.map Prod.fst
      (List.foldl (fun (M : MapVector V) BB => MapVector.insert M BB (f BB)) [] (List.range n)) =
      List.range n := by
  induction n with
  | zero => simp
  | succ n ih =>
    have hn := find_foldl_insert_range f n n
    simp only [lt_self_iff_false, if_false] at hn
    rw [List.range_succ, List.foldl_append]
    simp only [List.foldl_cons, List.foldl_nil]
    rw [MapVector.keys_insert_of_find_none _ _ _ hn, ih]

theorem phase1_eq (F : Function) :
    phase1 F =
      { UEVar := List.foldl (fun (M : BBLiveOutSet) BB => MapVector.insert M BB
          (List.foldl summarizeInst ([], []) (F.insts BB)).1) [] (List.range F.size)
        VarKill := List.foldl (fun (M : BBLiveOutSet) BB => MapVector.insert M BB
          (List.foldl summarizeInst ([], []) (F.insts BB)).2) [] (List.range F.size)
        LiveOut := List.foldl (fun (M : BBLiveOutSet) BB => MapVector.insert M BB [])
          [] (List.range F.size) } := by
  unfold phase1
  generalize List.range F.size = L
  have key : ∀ (L : List Nat) (U K O : BBLiveOutSet),
      List.foldl
        (fun (maps : LivenessMaps) BB =>
          { UEVar := MapVector.insert maps.UEVar BB
              (List.foldl summarizeInst ([], []) (F.insts BB)).1
            VarKill := MapVector.insert maps.VarKill BB
              (List.foldl summarizeInst ([], []) (F.insts BB)).2
            LiveOut := MapVector.insert maps.LiveOut BB [] })
        { UEVar := U, VarKill := K, LiveOut := O } L =
      { UEVar := List.foldl (fun (M : BBLiveOutSet) BB => MapVector.insert M BB
          (List.foldl summarizeInst ([], []) (F.insts BB)).1) U L
        VarKill := List.foldl (fun (M : BBLiveOutSet) BB => MapVector.insert M BB
          (List.foldl summarizeInst ([], []) (F.insts BB)).2) K L
        LiveOut := List.foldl (fun (M : BBLiveOutSet) BB => MapVector.insert M BB []) O L } := by
    intro L
    induction L with
    | nil => intro U K O; rfl
    | cons b L ih => intro U K O; simp only [List.foldl_cons]; exact ih _ _ _
  exact key L [] [] []

theorem index_phase1_LiveOut (F : Function) (k : Nat) :
    MapVector.index (phase1 F).LiveOut k = [] := by
  rw [phase1_eq]
  simp only [MapVector.index, find_foldl_insert_range]
  split <;> rfl

theorem keys_phase1_LiveOut (F : Function) :
    List.map Prod.fst (phase1 F).LiveOut = List.range F.size := by
  rw [phase1_eq]
  exact keys_foldl_insert_range _ _


/-! ## Invariants of the liveness iteration -/

theorem liveInv_phase1 (F : Function) :
    LiveInv F (phase1 F).UEVar (phase1 F).VarKill (phase1 F).LiveOut := by
  refine ⟨keys_phase1_LiveOut F, ?_, ?_, ?_⟩
  · intro k; rw [index_phase1_LiveOut]; exact List.nodup_nil
  · intro k x hx; rw [index_phase1_LiveOut] at hx; cases hx
  · intro b t ht; rw [index_phase1_LiveOut] at ht; cases ht

theorem mem_flatMap_of_mem_index (UEVar : BBLiveOutSet) (s : Nat) (x : Value)
    (h : x ∈ MapVector.index UEVar s) : x ∈ List.flatMap UEVar Prod.snd := by
  unfold MapVector.index at h
  cases hf : MapVector.find UEVar s with
  | none => rw [hf] at h; cases h
  | some S =>
    rw [hf] at h
    exact List.mem_flatMap.2 ⟨(s, S), MapVector.mem_of_find _ _ _ hf, h⟩

/-- A visit that replaces the set of `BB` puts a superset in its place. -/
theorem liveInv_assign (F : Function) (UEVar VarKill LiveOut : BBLiveOutSet) (BB : Nat)
    (h : LiveInv F UEVar VarKill LiveOut) (hbN : BB < F.size) :
    LiveInv F UEVar VarKill
      (MapVector.assign LiveOut BB (newLiveOut F UEVar VarKill LiveOut BB)) := by
  have hidx := MapVector.index_assign LiveOut BB
  have hsup : ∀ p t, t ∈ MapVector.index LiveOut p →
      t ∈ MapVector.index
        (MapVector.assign LiveOut BB (newLiveOut F UEVar VarKill LiveOut BB)) p := by
    intro p t ht
    rw [hidx]
    split
    · rename_i hp; subst hp; exact h.asc _ t ht
    · exact ht
  have hmono : ∀ b t, t ∈ newLiveOut F UEVar VarKill LiveOut b →
      t ∈ newLiveOut F UEVar VarKill
        (MapVector.assign LiveOut BB (newLiveOut F UEVar VarKill LiveOut BB)) b := by
    intro b t ht
    rw [mem_newLiveOut] at ht ⊢
    obtain ⟨s, hs, h1 | h1⟩ := ht
    · exact ⟨s, hs, Or.inl ⟨hsup s t h1.1, h1.2⟩⟩
    · exact ⟨s, hs, Or.inr h1⟩
  refine ⟨?_, ?_, ?_, ?_⟩
  · rw [MapVector.keys_assign, h.keys]
    simp [hbN]
  · intro k
    rw [hidx]
    split
    · exact nodup_newLiveOut F UEVar VarKill LiveOut BB
    · exact h.nodup k
  · intro k x hx
    rw [hidx] at hx
    split at hx
    · rw [mem_newLiveOut] at hx
      obtain ⟨s, _, h1 | h1⟩ := hx
      · exact h.bound s x h1.1
      · exact mem_flatMap_of_mem_index UEVar s x h1
    · exact h.bound k x hx
  · intro b t ht
    rw [hidx] at ht
    split at ht
    · rename_i hb; subst hb; exact hmono _ t ht
    · exact hmono b t (h.asc b t ht)

theorem length_le_of_nodup_subset {α : Type} [DecidableEq α] (A M : List α)
    (hA : List.Nodup A) (hsub : ∀ x, x ∈ A → x ∈ M) : A.length ≤ M.length := by
  rw [← List.toFinset_card_of_nodup hA]
  calc A.toFinset.card ≤ M.toFinset.card := by
        apply Finset.card_le_card
        intro x hx
        simpa using hsub x (by simpa using hx)
    _ ≤ M.length := List.toFinset_card_le M

theorem liveSum_le (F : Function) (UEVar VarKill LiveOut : BBLiveOutSet)
    (h : LiveInv F UEVar VarKill LiveOut) :
    (List.map (fun k => (MapVector.index LiveOut k).length) (List.range F.size)).sum ≤
      F.size * (List.flatMap UEVar Prod.snd).length := by
  have := List.sum_le_card_nsmul (List.map (fun k => (MapVector.index LiveOut k).length)
    (List.range F.size)) (List.flatMap UEVar Prod.snd).length (by
      intro x hx
      obtain ⟨k, _, rfl⟩ := List.mem_map.1 hx
      exact length_le_of_nodup_subset _ _ (h.nodup k) (h.bound k))
  simpa using this

theorem liveMeasure_assign_lt (F : Function) (UEVar VarKill LiveOut : BBLiveOutSet) (BB : Nat)
    (h : LiveInv F UEVar VarKill LiveOut) (hbN : BB < F.size)
    (hne : SmallPtrSet.ne (newLiveOut F UEVar VarKill LiveOut BB)
      (MapVector.index LiveOut BB) = true) :
    liveMeasure F UEVar (MapVector.assign LiveOut BB (newLiveOut F UEVar VarKill LiveOut BB)) <
      liveMeasure F UEVar LiveOut := by
  have hlt : (List.map (fun k => (MapVector.index LiveOut k).length) (List.range F.size)).sum <
      (List.map (fun k => (MapVector.index
        (MapVector.assign LiveOut BB (newLiveOut F UEVar VarKill LiveOut BB)) k).length)
        (List.range F.size)).sum := by
    apply List.sum_lt_sum
    · intro k _
      rw [MapVector.index_assign]
      split
      · rename_i hk; subst hk
        have := length_lt_of_subset_ne _ _ (nodup_newLiveOut F UEVar VarKill LiveOut k)
          (h.nodup k) (h.asc k) ((SmallPtrSet.ne_eq_true_iff _ _).1 hne)
        omega
      · exact le_refl _
    · refine ⟨BB, List.mem_range.2 hbN, ?_⟩
      rw [MapVector.index_assign]
      simp only [if_true]
      exact length_lt_of_subset_ne _ _ (nodup_newLiveOut F UEVar VarKill LiveOut BB)
        (h.nodup BB) (h.asc BB) ((SmallPtrSet.ne_eq_true_iff _ _).1 hne)
  have hle := liveSum_le F UEVar VarKill _ (liveInv_assign F UEVar VarKill LiveOut BB h hbN)
  unfold liveMeasure
  omega

/-- One sweep of Phase 2 keeps the invariants, shrinks the measure when it
reports a change, and otherwise leaves the map as it was, every block's set
being equal to its recomputation. -/
theorem liveSweep_spec (F : Function) (UEVar VarKill : BBLiveOutSet)
    (P : BBLiveOutSet → Prop)
    (hP : ∀ L BB, LiveInv F UEVar VarKill L → P L → BB < F.size →
      P (MapVector.assign L BB (newLiveOut F UEVar VarKill L BB)))
    (LiveOut : BBLiveOutSet) (h1 : LiveInv F UEVar VarKill LiveOut) (h2 : P LiveOut) :
    (LiveInv F UEVar VarKill (liveSweep F UEVar VarKill LiveOut).1 ∧
      P (liveSweep F UEVar VarKill LiveOut).1) ∧
    ((liveSweep F UEVar VarKill LiveOut).2 = true →
      liveMeasure F UEVar (liveSweep F UEVar VarKill LiveOut).1 <
        liveMeasure F UEVar LiveOut) ∧
    ((liveSweep F UEVar VarKill LiveOut).2 = false →
      (liveSweep F UEVar VarKill LiveOut).1 = LiveOut ∧
      ∀ b, b < F.size →
        SmallPtrSet.ne (newLiveOut F UEVar VarKill LiveOut b)
          (MapVector.index LiveOut b) = false) := by
  obtain ⟨i1, _, i3, i4⟩ := foldl_visit_spec (liveVisit F UEVar VarKill)
    (fun L => LiveInv F UEVar VarKill L ∧ P L) (liveMeasure F UEVar)
    (fun L b => SmallPtrSet.ne (newLiveOut F UEVar VarKill L b) (MapVector.index L b) = false)
    (List.range F.size)
    (by
      intro st b hb hinv
      have hbN := List.mem_range.1 hb
      cases hne : SmallPtrSet.ne (newLiveOut F UEVar VarKill st.1 b) (MapVector.index st.1 b) with
      | false =>
        left
        exact ⟨by simp [liveVisit, hne], hne⟩
      | true =>
        right
        have hv : liveVisit F UEVar VarKill st b =
            (MapVector.assign st.1 b (newLiveOut F UEVar VarKill st.1 b), true) := by
          simp [liveVisit, hne]
        rw [hv]
        exact ⟨rfl, ⟨liveInv_assign F UEVar VarKill st.1 b hinv.1 hbN,
          hP st.1 b hinv.1 hinv.2 hbN⟩,
          liveMeasure_assign_lt F UEVar VarKill st.1 b hinv.1 hbN hne⟩)
    (LiveOut, false) ⟨h1, h2⟩
  refine ⟨i1, ?_, ?_⟩
  · intro hc
    rcases i3 hc with h | h
    · cases h
    · exact h
  · intro hc
    obtain ⟨j1, j2⟩ := i4 hc
    refine ⟨by rw [liveSweep, j1], ?_⟩
    intro b hbN
    exact j2 b (List.mem_range.2 hbN)

/-- The iteration of Phase 2 ends within its fuel, at a map with the
invariants that a further sweep leaves unchanged. -/
theorem liveLoop_spec (F : Function) (UEVar VarKill : BBLiveOutSet)
    (P : BBLiveOutSet → Prop)
    (hP : ∀ L BB, LiveInv F UEVar VarKill L → P L → BB < F.size →
      P (MapVector.assign L BB (newLiveOut F UEVar VarKill L BB)))
    (L0 : BBLiveOutSet) (h1 : LiveInv F UEVar VarKill L0) (h2 : P L0) :
    ∃ L, whileChanged (liveSweep F UEVar VarKill) (liveFuel F UEVar) L0 = some L ∧
      LiveInv F UEVar VarKill L ∧ P L ∧ liveSweep F UEVar VarKill L = (L, false) ∧
      ∀ b t, t ∈ MapVector.index L b ↔ t ∈ newLiveOut F UEVar VarKill L b := by
  obtain ⟨r, s', hr, ⟨hs1, hs2⟩, hsw⟩ := whileChanged_terminates (liveSweep F UEVar VarKill)
    (fun L => LiveInv F UEVar VarKill L ∧ P L) (liveMeasure F UEVar)
    (fun s hs => (liveSweep_spec F UEVar VarKill P hP s hs.1 hs.2).1)
    (fun s hs => (liveSweep_spec F UEVar VarKill P hP s hs.1 hs.2).2.1)
    (liveFuel F UEVar) L0 ⟨h1, h2⟩
    (by unfold liveFuel liveMeasure; omega)
  have hc : (liveSweep F UEVar VarKill s').2 = false := by rw [hsw]
  obtain ⟨e1, e2⟩ := (liveSweep_spec F UEVar VarKill P hP s' hs1 hs2).2.2 hc
  have hrs : r = s' := by rw [← e1, hsw]
  subst hrs
  refine ⟨r, hr, hs1, hs2, hsw, ?_⟩
  intro b t
  by_cases hb : b < F.size
  · exact ((SmallPtrSet.ne_eq_false_iff _ _).1 (e2 b hb) t).symm
  · have hnone : MapVector.find r b = none := by
      rw [MapVector.find_eq_none_iff, hs1.keys]
      simpa using hb
    have hsucc : F.succs b = [] := by
      unfold Function.succs
      rw [List.getElem?_eq_none (by unfold Function.size at hb; omega)]
    rw [mem_newLiveOut, hsucc]
    simp only [MapVector.index, hnone, Option.getD_none, List.not_mem_nil, false_and,
      exists_false]
    exact ⟨fun h => absurd h (List.not_mem_nil t), fun h => h.elim⟩


/-! ## Liveness on paths -/

/-- Every value put into a set by Phase 2 has a path to an upward-exposed
use. -/
theorem livePath_assign (F : Function) (UEVar VarKill L : BBLiveOutSet) (BB : Nat)
    (hs : ∀ n v, v ∈ MapVector.index L n → ∃ p, LivePath F UEVar VarKill v n p) :
    ∀ n v, v ∈ MapVector.index (MapVector.assign L BB (newLiveOut F UEVar VarKill L BB)) n →
      ∃ p, LivePath F UEVar VarKill v n p := by
  intro n v hv
  rw [MapVector.index_assign] at hv
  split at hv
  · rename_i hn; subst hn
    rw [mem_newLiveOut] at hv
    obtain ⟨s, hsucc, ⟨h1, h2⟩ | h1⟩ := hv
    · obtain ⟨p, hc, ⟨bk, hlast, hbk⟩, hk⟩ := hs s v h1
      cases p with
      | nil => simp at hlast
      | cons s' p' =>
        refine ⟨s :: s' :: p', List.Chain.cons hsucc hc, ⟨bk, ?_, hbk⟩, ?_⟩
        · rw [List.getLast?_cons_cons]; exact hlast
        · intro b hb
          rw [List.dropLast_cons_of_ne_nil (List.cons_ne_nil _ _)] at hb
          rcases List.mem_cons.1 hb with rfl | hb
          · exact h2
          · exact hk b hb
    · exact ⟨[s], List.Chain.cons hsucc List.Chain.nil, ⟨s, rfl, h1⟩, by simp⟩
  · exact hs n v hv

/-- In a map whose sets hold their recomputation, every value with a path to
an upward-exposed use is in the set of the start block. -/
theorem mem_of_livePath (F : Function) (UEVar VarKill L : BBLiveOutSet)
    (hst : ∀ b t, t ∈ newLiveOut F UEVar VarKill L b → t ∈ MapVector.index L b)
    (v : Value) (p : List Nat) :
    ∀ n, LivePath F UEVar VarKill v n p → v ∈ MapVector.index L n := by
  induction p with
  | nil =>
    rintro n ⟨_, ⟨bk, hlast, _⟩, _⟩
    simp at hlast
  | cons s p' ih =>
    rintro n ⟨hc, ⟨bk, hlast, hbk⟩, hk⟩
    have hsucc : s ∈ F.succs n := (List.chain_cons.1 hc).1
    have hc' : List.Chain (fun a b => b ∈ F.succs a) s p' := (List.chain_cons.1 hc).2
    apply hst
    rw [mem_newLiveOut]
    cases p' with
    | nil =>
      simp only [List.getLast?_singleton, Option.some.injEq] at hlast
      subst hlast
      exact ⟨s, hsucc, Or.inr hbk⟩
    | cons s' p'' =>
      rw [List.getLast?_cons_cons] at hlast
      rw [List.dropLast_cons_of_ne_nil (List.cons_ne_nil _ _)] at hk
      have hin : v ∈ MapVector.index L s :=
        ih s ⟨hc', ⟨bk, hlast, hbk⟩, fun b hb => hk b (List.mem_cons_of_mem _ hb)⟩
      exact ⟨s, hsucc, Or.inl ⟨hin, hk s (List.mem_cons_self _ _)⟩⟩

/-- Phase 2 returns, at a map with the invariants that one more sweep leaves
unchanged and whose members are the values with a path to an upward-exposed
use. -/
theorem phase2_spec (F : Function) :
    ∃ L, phase2 F = some L ∧
      LiveInv F (phase1 F).UEVar (phase1 F).VarKill L ∧
      liveSweep F (phase1 F).UEVar (phase1 F).VarKill L = (L, false) ∧
      (∀ b t, t ∈ MapVector.index L b ↔
        t ∈ newLiveOut F (phase1 F).UEVar (phase1 F).VarKill L b) ∧
      ∀ n v, v ∈ MapVector.index L n ↔
        ∃ p, LivePath F (phase1 F).UEVar (phase1 F).VarKill v n p := by
  obtain ⟨L, hL, hinv, hs, hsw, hst⟩ := liveLoop_spec F (phase1 F).UEVar (phase1 F).VarKill
    (fun L => ∀ n v, v ∈ MapVector.index L n →
      ∃ p, LivePath F (phase1 F).UEVar (phase1 F).VarKill v n p)
    (fun L BB _ hs _ => livePath_assign F _ _ L BB hs)
    (phase1 F).LiveOut (liveInv_phase1 F)
    (by intro n v hv; rw [index_phase1_LiveOut] at hv; cases hv)
  refine ⟨L, hL, hinv, hsw, hst, ?_⟩
  intro n v
  constructor
  · exact hs n v
  · rintro ⟨p, hp⟩
    exact mem_of_livePath F _ _ L (fun b t => (hst b t).2) v p n hp

/-- The members of a set after the loop over the operands of one phi of
`BB` (lines 102-108). -/
theorem mem_index_phiOperands (F : Function) (BB : Nat) (ops : List Value) :
    ∀ (L : BBLiveOutSet) (b : Nat) (t : Value),
      t ∈ MapVector.index
        (List.foldl
          (fun (L : BBLiveOutSet) v =>
            if definedInBlock F BB v then
              MapVector.assign L BB (SmallPtrSet.insert (MapVector.index L BB) v)
            else L)
          L ops) b ↔
      t ∈ MapVector.index L b ∨ (b = BB ∧ t ∈ ops ∧ definedInBlock F BB t = true) := by
  induction ops with
  | nil => intro L b t; simp
  | cons v ops ih =>
    intro L b t
    simp only [List.foldl_cons, ih, List.mem_cons]
    cases hv : definedInBlock F BB v with
    | false =>
      simp only [Bool.false_eq_true, if_false]
      constructor
      · rintro (h | ⟨h1, h2, h3⟩)
        · exact Or.inl h
        · exact Or.inr ⟨h1, Or.inr h2, h3⟩
      · rintro (h | ⟨h1, h2 | h2, h3⟩)
        · exact Or.inl h
        · subst h2; rw [hv] at h3; cases h3
        · exact Or.inr ⟨h1, h2, h3⟩
    | true =>
      simp only [if_true, MapVector.index_assign]
      by_cases hb : b = BB
      · subst hb
        simp only [if_true, SmallPtrSet.mem_insert, true_and]
        constructor
        · rintro ((h | h) | ⟨h2, h3⟩)
          · exact Or.inl h
          · subst h; exact Or.inr ⟨Or.inl rfl, hv⟩
          · exact Or.inr ⟨Or.inr h2, h3⟩
        · rintro (h | ⟨h2 | h2, h3⟩)
          · exact Or.inl (Or.inl h)
          · exact Or.inl (Or.inr h2)
          · exact Or.inr ⟨h2, h3⟩
      · simp [hb]

/-- The members of a set after the loop over the instructions of `BB`
(lines 100-110). -/
theorem mem_index_phiInsts (F : Function) (BB : Nat) (insts : List Instruction) :
    ∀ (L : BBLiveOutSet) (b : Nat) (t : Value),
      t ∈ MapVector.index
        (List.foldl
          (fun (L : BBLiveOutSet) (Inst : Instruction) =>
            if Inst.isPHI then
              List.foldl
                (fun (L : BBLiveOutSet) v =>
                  if definedInBlock F BB v then
                    MapVector.assign L BB (SmallPtrSet.insert (MapVector.index L BB) v)
                  else L)
                L Inst.operands
            else L)
          L insts) b ↔
      t ∈ MapVector.index L b ∨
        (b = BB ∧ ∃ Inst ∈ insts, Inst.isPHI = true ∧ t ∈ Inst.operands ∧
          definedInBlock F BB t = true) := by
  induction insts with
  | nil => intro L b t; simp
  | cons I insts ih =>
    intro L b t
    simp only [List.foldl_cons, ih, List.mem_cons, exists_eq_or_imp]
    cases hI : I.isPHI with
    | false =>
      simp
    | true =>
      simp only [if_true, mem_index_phiOperands, true_and]
      constructor
      · rintro ((h | ⟨h1, h2⟩) | ⟨h1, h2⟩)
        · exact Or.inl h
        · exact Or.inr ⟨h1, Or.inl h2⟩
        · exact Or.inr ⟨h1, Or.inr h2⟩
      · rintro (h | ⟨h1, h2 | h2⟩)
        · exact Or.inl (Or.inl h)
        · exact Or.inl (Or.inr ⟨h1, h2⟩)
        · exact Or.inr ⟨h1, h2⟩

/-- The members of the sets after Phase 3: those before it, and for a block
the operands of its phis that are instructions of the block. -/
theorem mem_index_phiCorrection (F : Function) (L : BBLiveOutSet) (b : Nat) (t : Value) :
    t ∈ MapVector.index (phiCorrection F L) b ↔
      t ∈ MapVector.index L b ∨
        (b < F.size ∧ ∃ Inst ∈ F.insts b, Inst.isPHI = true ∧ t ∈ Inst.operands ∧
          definedInBlock F b t = true) := by
  have key : ∀ (bbs : List Nat) (L : BBLiveOutSet),
      t ∈ MapVector.index
        (List.foldl
          (fun (L : BBLiveOutSet) BB =>
            List.foldl
              (fun (L : BBLiveOutSet) (Inst : Instruction) =>
                if Inst.isPHI then
                  List.foldl
                    (fun (L : BBLiveOutSet) v =>
                      if definedInBlock F BB v then
                        MapVector.assign L BB (SmallPtrSet.insert (MapVector.index L BB) v)
                      else L)
                    L Inst.operands
                else L)
              L (F.insts BB))
          L bbs) b ↔
      t ∈ MapVector.index L b ∨
        (b ∈ bbs ∧ ∃ Inst ∈ F.insts b, Inst.isPHI = true ∧ t ∈ Inst.operands ∧
          definedInBlock F b t = true) := by
    intro bbs
    induction bbs with
    | nil => intro L; simp
    | cons BB bbs ih =>
      intro L
      simp only [List.foldl_cons, ih, mem_index_phiInsts, List.mem_cons]
      constructor
      · rintro ((h | ⟨h1, h2⟩) | ⟨h1, h2⟩)
        · exact Or.inl h
        · subst h1; exact Or.inr ⟨Or.inl rfl, h2⟩
        · exact Or.inr ⟨Or.inr h1, h2⟩
      · rintro (h | ⟨h1 | h1, h2⟩)
        · exact Or.inl (Or.inl h)
        · subst h1; exact Or.inl (Or.inr ⟨rfl, h2⟩)
        · exact Or.inr ⟨h1, h2⟩
  unfold phiCorrection
  rw [key, List.mem_range]

/-- Phase 3 leaves alone the set of a block none of whose phis has an operand
from the block. -/
theorem mem_index_phiCorrection_of_noSelfPhi (F : Function) (L : BBLiveOutSet) (b : Nat)
    (h : NoSelfPhiAt F b) (t : Value) :
    t ∈ MapVector.index (phiCorrection F L) b ↔ t ∈ MapVector.index L b := by
  rw [mem_index_phiCorrection]
  constructor
  · rintro (h1 | ⟨_, Inst, hI, hphi, hop, hd⟩)
    · exact h1
    · rw [h Inst hI hphi t hop] at hd
      cases hd
  · exact Or.inl

theorem liveness_runOnFunction_eq (F : Function) (L : BBLiveOutSet) (h : phase2 F = some L) :
    LivenessAnalysis.runOnFunction F =
      some { ResultBBLiveOut := phiCorrection F L
             ResultInstLiveOut := phase4 F (phiCorrection F L) } := by
  unfold LivenessAnalysis.runOnFunction
  rw [h]

/-! ## The claims on Phase 2 of the liveness analysis -/

/-- C7, as stated, fails at the loop block of `loopFunction`: the returned
`LiveOut` of block 1 holds `%2`, put there by the phi correction, and no
successor of block 1 contributes `%2` to the right-hand side of the liveness
equation. -/
theorem C7_returned_liveOut_breaks_equation :
    ∃ res, LivenessAnalysis.runOnFunction loopFunction = some res ∧
      ¬ LiveOutEquation loopFunction (phase1 loopFunction).UEVar
        (phase1 loopFunction).VarKill res.ResultBBLiveOut 1 := by
  refine ⟨_, rfl, ?_⟩
  intro h
  have h2 := (h (Value.instruction 2)).1 (by decide)
  revert h2
  decide

/-- C8: Phase 2 ends, and at its end a value `v` is in `LiveOut(n)` exactly
when some path `n → b1 → ... → bk` with `k ≥ 1` has `v` in `UEVar(bk)` and in
no `VarKill(bi)` with `i < k`.  The map is the least solution of the liveness
equations: it satisfies them at every block and is contained in every map that
does. -/
theorem C8_phase2_least_solution (F : Function) :
    ∃ L, phase2 F = some L ∧
      (∀ n v, v ∈ MapVector.index L n ↔
        ∃ p, LivePath F (phase1 F).UEVar (phase1 F).VarKill v n p) ∧
      (∀ n, LiveOutEquation F (phase1 F).UEVar (phase1 F).VarKill L n) ∧
      ∀ L', (∀ n, LiveOutEquation F (phase1 F).UEVar (phase1 F).VarKill L' n) →
        ∀ n v, v ∈ MapVector.index L n → v ∈ MapVector.index L' n := by
  obtain ⟨L, hL, _, _, hst, hp⟩ := phase2_spec F
  refine ⟨L, hL, hp, ?_, ?_⟩
  · intro n v
    rw [hst, mem_newLiveOut]
  · intro L' hL' n v hv
    obtain ⟨p, hpath⟩ := (hp n v).1 hv
    refine mem_of_livePath F _ _ L' ?_ v p n hpath
    intro b t ht
    exact (hL' b t).2 ((mem_newLiveOut _ _ _ _ _ _).1 ht)

/-- C9: the map at the exit of the Phase 2 loop is a fixed point.  One more
sweep returns the same map with `changed` false, and at every block the
recomputed `NewLiveOut` compares equal to `LiveOut` and the liveness equation
holds. -/
theorem C9_phase2_fixed_point (F : Function) :
    ∃ L, phase2 F = some L ∧
      liveSweep F (phase1 F).UEVar (phase1 F).VarKill L = (L, false) ∧
      ∀ n, SmallPtrSet.ne (newLiveOut F (phase1 F).UEVar (phase1 F).VarKill L n)
          (MapVector.index L n) = false ∧
        LiveOutEquation F (phase1 F).UEVar (phase1 F).VarKill L n := by
  obtain ⟨L, hL, _, hsw, hst, _⟩ := phase2_spec F
  refine ⟨L, hL, hsw, ?_⟩
  intro n
  refine ⟨?_, ?_⟩
  · rw [SmallPtrSet.ne_eq_false_iff]
    intro x
    exact (hst n x).symm
  · intro v
    rw [hst, mem_newLiveOut]

/-- C10: the Phase 2 iteration terminates on every function: the loop
returns a map, the same for every amount of fuel from `liveFuel` on, and
`runOnFunction` returns a result. -/
theorem C10_phase2_terminates (F : Function) :
    ∃ L, phase2 F = some L ∧
      (∀ fuel, liveFuel F (phase1 F).UEVar ≤ fuel →
        whileChanged (liveSweep F (phase1 F).UEVar (phase1 F).VarKill) fuel
          (phase1 F).LiveOut = some L) ∧
      ∃ res, LivenessAnalysis.runOnFunction F = some res := by
  obtain ⟨L, hL, _, _, _, _⟩ := phase2_spec F
  refine ⟨L, hL, fun fuel hf => whileChanged_mono _ _ _ _ _ hf hL, ?_⟩
  exact ⟨_, liveness_runOnFunction_eq F L hL⟩


/-! ## The reverse scan of Phase 4 -/

theorem scanInst_reverse_cons (acc : InstLiveOutSet × ValueSet) (i : Instruction)
    (rest : List Instruction) :
    List.foldl scanInst acc (i :: rest).reverse =
      scanInst (List.foldl scanInst acc rest.reverse) i := by
  rw [List.reverse_cons, List.foldl_append]
  rfl

theorem scanInst_snd_indep (l : List Instruction) :
    ∀ (M M' : InstLiveOutSet) (S : ValueSet),
      (List.foldl scanInst (M, S) l).2 = (List.foldl scanInst (M', S) l).2 := by
  induction l with
  | nil => intro M M' S; rfl
  | cons x l ih =>
    intro M M' S
    simp only [List.foldl_cons, scanInst]
    exact ih _ _ _

theorem runningSet_nil (S : ValueSet) : runningSet S [] = S := rfl

theorem runningSet_cons (S : ValueSet) (j : Instruction) (post : List Instruction) :
    runningSet S (j :: post) =
      SmallPtrSet.erase
        (List.foldl
          (fun BBLiveOut (v : Value) =>
            if v.isTracked then SmallPtrSet.insert BBLiveOut v else BBLiveOut)
          (runningSet S post) j.operands)
        (Value.instruction j.id) := by
  unfold runningSet
  rw [scanInst_reverse_cons]
  rfl

theorem mem_foldl_insert_tracked (ops : List Value) :
    ∀ (S : ValueSet) (v : Value),
      v ∈ List.foldl
        (fun BBLiveOut (v : Value) =>
          if v.isTracked then SmallPtrSet.insert BBLiveOut v else BBLiveOut) S ops ↔
      v ∈ S ∨ (v ∈ ops ∧ v.isTracked = true) := by
  induction ops with
  | nil => intro S v; simp
  | cons w ops ih =>
    intro S v
    simp only [List.foldl_cons, ih, List.mem_cons]
    cases hw : w.isTracked with
    | false =>
      simp only [Bool.false_eq_true, if_false]
      constructor
      · rintro (h | ⟨h1, h2⟩)
        · exact Or.inl h
        · exact Or.inr ⟨Or.inr h1, h2⟩
      · rintro (h | ⟨h1 | h1, h2⟩)
        · exact Or.inl h
        · subst h1; rw [hw] at h2; cases h2
        · exact Or.inr ⟨h1, h2⟩
    | true =>
      simp only [if_true, SmallPtrSet.mem_insert]
      constructor
      · rintro ((h | h) | ⟨h1, h2⟩)
        · exact Or.inl h
        · subst h; exact Or.inr ⟨Or.inl rfl, hw⟩
        · exact Or.inr ⟨Or.inr h1, h2⟩
      · rintro (h | ⟨h1 | h1, h2⟩)
        · exact Or.inl (Or.inl h)
        · exact Or.inl (Or.inr h1)
        · exact Or.inr ⟨h1, h2⟩

/-- The running set before an instruction: the running set after it with the
tracked operands of the instruction and without the instruction itself. -/
theorem mem_runningSet_cons (S : ValueSet) (j : Instruction) (post : List Instruction)
    (v : Value) :
    v ∈ runningSet S (j :: post) ↔
      (v ∈ runningSet S post ∨ (v ∈ j.operands ∧ v.isTracked = true)) ∧
        v ≠ Value.instruction j.id := by
  rw [runningSet_cons, SmallPtrSet.mem_erase, mem_foldl_insert_tracked]

/-- The scan of the instructions `l` of a block: the running set it ends
with, and the sets it records. -/
theorem scan_block_spec (l : List Instruction) :
    ∀ (M : InstLiveOutSet) (S : ValueSet),
      (List.foldl scanInst (M, S) l.reverse).2 = runningSet S l ∧
      (∀ id, id ∉ List.map Instruction.id l →
        MapVector.find (List.foldl scanInst (M, S) l.reverse).1 id = MapVector.find M id) ∧
      (List.Nodup (List.map Instruction.id l) → ∀ pre i post, l = pre ++ i :: post →
        MapVector.find (List.foldl scanInst (M, S) l.reverse).1 i.id =
          some (runningSet S post)) := by
  induction l with
  | nil =>
    intro M S
    refine ⟨rfl, fun _ _ => rfl, ?_⟩
    intro _ pre i post h
    simp at h
  | cons i0 rest ih =>
    intro M S
    obtain ⟨ih1, ih2, ih3⟩ := ih M S
    rw [scanInst_reverse_cons]
    refine ⟨?_, ?_, ?_⟩
    · unfold runningSet
      rw [scanInst_reverse_cons]
      simp only [scanInst]
      rw [ih1]
      rfl
    · intro id hid
      simp only [List.map_cons, List.mem_cons, not_or] at hid
      simp only [scanInst]
      rw [MapVector.find_assign, if_neg hid.1]
      exact ih2 id hid.2
    · intro hnd pre i post hl
      simp only [List.map_cons, List.nodup_cons] at hnd
      simp only [scanInst]
      rw [MapVector.find_assign]
      cases pre with
      | nil =>
        simp only [List.nil_append, List.cons.injEq] at hl
        obtain ⟨h1, h2⟩ := hl
        subst h1; subst h2
        simp only [if_true]
        rw [ih1]
      | cons p0 pre' =>
        simp only [List.cons_append, List.cons.injEq] at hl
        obtain ⟨h1, h2⟩ := hl
        subst h1
        have hne : ¬ i.id = i0.id := by
          intro he
          apply hnd.1
          rw [h2, ← he]
          simp
        rw [if_neg hne]
        exact ih3 hnd.2 pre' i post h2

/-- The sets recorded by Phase 4 over the blocks `bbs`. -/
theorem phase4_blocks_spec (F : Function) (LiveOut : BBLiveOutSet) (bbs : List Nat) :
    ∀ (M : InstLiveOutSet),
      List.Nodup (List.flatMap bbs (fun BB => List.map Instruction.id (F.insts BB))) →
      (∀ id, id ∉ List.flatMap bbs (fun BB => List.map Instruction.id (F.insts BB)) →
        MapVector.find
          (List.foldl
            (fun InstVSet BB =>
              (List.foldl scanInst (InstVSet, MapVector.index LiveOut BB)
                (F.insts BB).reverse).1) M bbs) id = MapVector.find M id) ∧
      (∀ b ∈ bbs, ∀ pre i post, F.insts b = pre ++ i :: post →
        MapVector.find
          (List.foldl
            (fun InstVSet BB =>
              (List.foldl scanInst (InstVSet, MapVector.index LiveOut BB)
                (F.insts BB).reverse).1) M bbs) i.id =
          some (runningSet (MapVector.index LiveOut b) post)) := by
  induction bbs with
  | nil =>
    intro M _
    exact ⟨fun _ _ => rfl, fun b hb => absurd hb (List.not_mem_nil b)⟩
  | cons b0 rest ih =>
    intro M hnd
    simp only [List.flatMap_cons, List.nodup_append] at hnd
    obtain ⟨hnd0, hndr, hdisj⟩ := hnd
    obtain ⟨_, s2, s3⟩ := scan_block_spec (F.insts b0) M (MapVector.index LiveOut b0)
    obtain ⟨ih1, ih2⟩ := ih
      (List.foldl scanInst (M, MapVector.index LiveOut b0) (F.insts b0).reverse).1 hndr
    simp only [List.foldl_cons]
    refine ⟨?_, ?_⟩
    · intro id hid
      simp only [List.flatMap_cons, List.mem_append, not_or] at hid
      rw [ih1 id hid.2]
      exact s2 id hid.1
    · intro b hb pre i post hl
      by_cases hin : i.id ∈ List.flatMap rest (fun BB => List.map Instruction.id (F.insts BB))
      · have hbr : b ∈ rest := by
          rcases List.mem_cons.1 hb with h | h
          · subst h
            exfalso
            refine hdisj ?_ hin
            rw [hl]
            simp
          · exact h
        exact ih2 b hbr pre i post hl
      · rw [ih1 i.id hin]
        have hb0 : b = b0 := by
          rcases List.mem_cons.1 hb with h | h
          · exact h
          · exfalso
            apply hin
            rw [List.mem_flatMap]
            exact ⟨b, h, by rw [hl]; simp⟩
        subst hb0
        exact s3 hnd0 pre i post hl

theorem lt_size_of_mem_insts (F : Function) (b : Nat) (i : Instruction)
    (h : i ∈ F.insts b) : b < F.size := by
  by_contra hb
  unfold Function.insts at h
  rw [List.getElem?_eq_none (by unfold Function.size at hb; omega)] at h
  cases h

/-- The set recorded by Phase 4 for an instruction of block `b` is the
running set after the instructions that follow it in `b`. -/
theorem find_phase4 (F : Function) (hF : F.InstIdsNodup) (LiveOut : BBLiveOutSet) (b : Nat)
    (pre : List Instruction) (i : Instruction) (post : List Instruction)
    (hl : F.insts b = pre ++ i :: post) :
    MapVector.find (phase4 F LiveOut) i.id =
      some (runningSet (MapVector.index LiveOut b) post) := by
  have hb : b < F.size := lt_size_of_mem_insts F b i (by rw [hl]; simp)
  exact (phase4_blocks_spec F LiveOut (List.range F.size) [] hF).2 b (List.mem_range.2 hb)
    pre i post hl


theorem mem_runningSet_source (S : ValueSet) (v : Value) (post : List Instruction)
    (h : v ∈ runningSet S post) : v ∈ S ∨ ∃ I ∈ post, v ∈ I.operands := by
  induction post with
  | nil => exact Or.inl h
  | cons j post ih =>
    rw [mem_runningSet_cons] at h
    rcases h.1 with h1 | h1
    · rcases ih h1 with h2 | ⟨I, hI, hv⟩
      · exact Or.inl h2
      · exact Or.inr ⟨I, List.mem_cons_of_mem _ hI, hv⟩
    · exact Or.inr ⟨j, List.mem_cons_self _ _, h1.1⟩

theorem id_ne_of_instIdsNodup (F : Function) (hF : F.InstIdsNodup) (b : Nat)
    (pre : List Instruction) (i j : Instruction) (post : List Instruction)
    (hl : F.insts b = pre ++ i :: j :: post) : i.id ≠ j.id := by
  have hb : b < F.size := lt_size_of_mem_insts F b i (by rw [hl]; simp)
  unfold Function.InstIdsNodup at hF
  have hnd := (List.nodup_flatMap.1 hF).1 b (List.mem_range.2 hb)
  rw [hl] at hnd
  simp only [List.map_append, List.map_cons, List.nodup_append, List.nodup_cons,
    List.mem_cons, not_or] at hnd
  exact hnd.2.1.1.1

/-! ## The claims on Phase 4 of the liveness analysis -/

/-- C11: in a function whose instructions are distinct, the set recorded
for the last instruction of a block with at least one instruction is the
returned `LiveOut` set of the block. -/
theorem C11_last_instruction_liveOut (F : Function) (hF : F.InstIdsNodup) (b : Nat)
    (hne : F.insts b ≠ []) :
    ∃ res, LivenessAnalysis.runOnFunction F = some res ∧
      MapVector.find res.ResultInstLiveOut ((F.insts b).getLast hne).id =
        some (MapVector.index res.ResultBBLiveOut b) := by
  obtain ⟨L, hL, _⟩ := phase2_spec F
  refine ⟨_, liveness_runOnFunction_eq F L hL, ?_⟩
  have hl : F.insts b = (F.insts b).dropLast ++ (F.insts b).getLast hne :: [] :=
    (List.dropLast_append_getLast hne).symm
  have := find_phase4 F hF (phiCorrection F L) b _ _ _ hl
  rw [runningSet_nil] at this
  exact this

/-- C11 at the only block of `straightFunction`. -/
theorem C11_last_instruction_liveOut_witness :
    straightFunction.InstIdsNodup ∧ ∃ hne : straightFunction.insts 0 ≠ [],
    ∃ res, LivenessAnalysis.runOnFunction straightFunction = some res ∧
      MapVector.find res.ResultInstLiveOut ((straightFunction.insts 0).getLast hne).id =
        some (MapVector.index res.ResultBBLiveOut 0) :=
  ⟨by decide, by decide,
    C11_last_instruction_liveOut straightFunction (by decide) 0 (by decide)⟩

/-- C12: in a function whose instructions are distinct, for an instruction
`i` immediately followed by `j` in a block, the set recorded for `i` holds
exactly the members of the set recorded for `j` and the tracked operands of
`j`, except `j` itself; in particular `j` is not in it. -/
theorem C12_consecutive_instructions (F : Function) (hF : F.InstIdsNodup) (b : Nat)
    (pre : List Instruction) (i j : Instruction) (post : List Instruction)
    (hl : F.insts b = pre ++ i :: j :: post) :
    ∃ res, LivenessAnalysis.runOnFunction F = some res ∧
      ∃ Si Sj, MapVector.find res.ResultInstLiveOut i.id = some Si ∧
        MapVector.find res.ResultInstLiveOut j.id = some Sj ∧
        (∀ v, v ∈ Si ↔
          (v ∈ Sj ∨ (v ∈ j.operands ∧ v.isTracked = true)) ∧ v ≠ Value.instruction j.id) ∧
        Value.instruction j.id ∉ Si := by
  obtain ⟨L, hL, _⟩ := phase2_spec F
  refine ⟨_, liveness_runOnFunction_eq F L hL, ?_⟩
  have hj : F.insts b = (pre ++ [i]) ++ j :: post := by rw [hl]; simp
  refine ⟨_, _, find_phase4 F hF (phiCorrection F L) b pre i (j :: post) hl,
    find_phase4 F hF (phiCorrection F L) b (pre ++ [i]) j post hj, ?_, ?_⟩
  · intro v
    exact mem_runningSet_cons _ j post v
  · intro h
    exact ((mem_runningSet_cons _ j post _).1 h).2 rfl

/-- C12 at the two instructions of `straightFunction`. -/
theorem C12_consecutive_instructions_witness :
    straightFunction.InstIdsNodup ∧
    straightFunction.insts 0 =
      [] ++ ⟨1, false, [Value.argument 0, Value.constant 1], true⟩ ::
        ⟨2, false, [Value.instruction 1], false⟩ :: [] ∧
    ∃ res, LivenessAnalysis.runOnFunction straightFunction = some res ∧
      ∃ Si Sj, MapVector.find res.ResultInstLiveOut 1 = some Si ∧
        MapVector.find res.ResultInstLiveOut 2 = some Sj ∧
        (∀ v, v ∈ Si ↔
          (v ∈ Sj ∨ (v ∈ [Value.instruction 1] ∧ v.isTracked = true)) ∧
            v ≠ Value.instruction 2) ∧
        Value.instruction 2 ∉ Si :=
  ⟨by decide, by decide,
    C12_consecutive_instructions straightFunction (by decide) 0 []
      ⟨1, false, [Value.argument 0, Value.constant 1], true⟩
      ⟨2, false, [Value.instruction 1], false⟩ [] (by decide)⟩

/-- C13, as stated, fails at `straightFunction`: `%1` is defined by the first
instruction, is an operand of the second and last one, and is not in the
`LiveOut` of the block, yet the set recorded for the defining instruction is
`{%1}`. -/
theorem C13_defining_instruction_holds_x :
    ∃ res, LivenessAnalysis.runOnFunction straightFunction = some res ∧
      straightFunction.insts 0 =
        [⟨1, false, [Value.argument 0, Value.constant 1], true⟩,
          ⟨2, false, [Value.instruction 1], false⟩] ∧
      Value.instruction 1 ∉ MapVector.index res.ResultBBLiveOut 0 ∧
      MapVector.find res.ResultInstLiveOut 1 = some [Value.instruction 1] :=
  ⟨_, rfl, by decide, by decide, by decide⟩

/-- C13, amended: in a function whose instructions are distinct, when the
instruction `d` is immediately followed in its block by an instruction `u` that
has the value of `d` as an operand, and that value is an operand of no later
instruction of the block and is not in the returned `LiveOut` of the block,
the set recorded for `d` contains the value and the set recorded for `u` does
not. -/
theorem C13_live_after_definition (F : Function) (hF : F.InstIdsNodup) (b : Nat)
    (pre : List Instruction) (d u : Instruction) (post : List Instruction)
    (hl : F.insts b = pre ++ d :: u :: post)
    (hx : Value.instruction d.id ∈ u.operands)
    (hlater : ∀ I ∈ post, Value.instruction d.id ∉ I.operands)
    (hout : ∀ res, LivenessAnalysis.runOnFunction F = some res →
      Value.instruction d.id ∉ MapVector.index res.ResultBBLiveOut b) :
    ∃ res, LivenessAnalysis.runOnFunction F = some res ∧
      ∃ Sd Su, MapVector.find res.ResultInstLiveOut d.id = some Sd ∧
        MapVector.find res.ResultInstLiveOut u.id = some Su ∧
        Value.instruction d.id ∈ Sd ∧ Value.instruction d.id ∉ Su := by
  obtain ⟨L, hL, _⟩ := phase2_spec F
  have hrun := liveness_runOnFunction_eq F L hL
  refine ⟨_, hrun, ?_⟩
  have hu : F.insts b = (pre ++ [d]) ++ u :: post := by rw [hl]; simp
  refine ⟨_, _, find_phase4 F hF (phiCorrection F L) b pre d (u :: post) hl,
    find_phase4 F hF (phiCorrection F L) b (pre ++ [d]) u post hu, ?_, ?_⟩
  · rw [mem_runningSet_cons]
    refine ⟨Or.inr ⟨hx, rfl⟩, ?_⟩
    intro he
    exact id_ne_of_instIdsNodup F hF b pre d u post hl (Value.instruction.inj he)
  · intro hin
    rcases mem_runningSet_source _ _ _ hin with h | ⟨I, hI, hv⟩
    · exact hout _ hrun h
    · exact hlater I hI hv

/-- C13, amended, at `straightFunction`. -/
theorem C13_live_after_definition_witness :
    straightFunction.InstIdsNodup ∧
    straightFunction.insts 0 =
      [] ++ ⟨1, false, [Value.argument 0, Value.constant 1], true⟩ ::
        ⟨2, false, [Value.instruction 1], false⟩ :: [] ∧
    Value.instruction 1 ∈ [Value.instruction 1] ∧
    (∀ I ∈ ([] : List Instruction), Value.instruction 1 ∉ I.operands) ∧
    (∀ res, LivenessAnalysis.runOnFunction straightFunction = some res →
      Value.instruction 1 ∉ MapVector.index res.ResultBBLiveOut 0) ∧
    ∃ res, LivenessAnalysis.runOnFunction straightFunction = some res ∧
      ∃ Sd Su, MapVector.find res.ResultInstLiveOut 1 = some Sd ∧
        MapVector.find res.ResultInstLiveOut 2 = some Su ∧
        Value.instruction 1 ∈ Sd ∧ Value.instruction 1 ∉ Su := by
  have hout : ∀ res, LivenessAnalysis.runOnFunction straightFunction = some res →
      Value.instruction 1 ∉ MapVector.index res.ResultBBLiveOut 0 := by
    intro res hres
    have hrun : LivenessAnalysis.runOnFunction straightFunction =
        some ⟨[(0, [])], [(2, []), (1, [Value.instruction 1])]⟩ := by decide
    rw [hrun] at hres
    cases hres
    decide
  exact ⟨by decide, by decide, by decide, by decide, hout,
    C13_live_after_definition straightFunction (by decide) 0 []
      ⟨1, false, [Value.argument 0, Value.constant 1], true⟩
      ⟨2, false, [Value.instruction 1], false⟩ [] (by decide) (by decide) (by decide) hout⟩


/-! ## The phi correction and the parent of an instruction -/

theorem eq_of_mem_flatMap_nodup {α β : Type} (f : α → List β) (l : List α)
    (h : List.Nodup (List.flatMap l f)) (a b : α) (x : β) (ha : a ∈ l) (hb : b ∈ l)
    (hxa : x ∈ f a) (hxb : x ∈ f b) : a = b := by
  induction l with
  | nil => cases ha
  | cons c rest ih =>
    simp only [List.flatMap_cons, List.nodup_append] at h
    obtain ⟨_, hr, hdisj⟩ := h
    rcases List.mem_cons.1 ha with ha' | ha'
    · rcases List.mem_cons.1 hb with hb' | hb'
      · rw [ha', hb']
      · subst ha'
        have hmem : x ∈ List.flatMap rest f := List.mem_flatMap.2 ⟨b, hb', hxb⟩
        exact absurd hmem (hdisj hxa)
    · rcases List.mem_cons.1 hb with hb' | hb'
      · subst hb'
        have hmem : x ∈ List.flatMap rest f := List.mem_flatMap.2 ⟨a, ha', hxa⟩
        exact absurd hmem (hdisj hxb)
      · exact ih hr ha' hb'

/-- In a function whose instructions are distinct, the parent of an
instruction of block `n` is `n`. -/
theorem getParent_of_mem (F : Function) (hF : F.InstIdsNodup) (n : Nat) (D : Instruction)
    (hD : D ∈ F.insts n) : F.getParent D.id = some n := by
  have hn : n < F.size := lt_size_of_mem_insts F n D hD
  unfold Function.getParent
  cases hfind : List.find? (fun BB => List.any (F.insts BB) (fun I => I.id == D.id))
      (List.range F.size) with
  | none =>
    rw [List.find?_eq_none] at hfind
    have := hfind n (List.mem_range.2 hn)
    simp only [List.any_eq_true, beq_iff_eq, not_exists, not_and] at this
    exact absurd rfl (this D hD)
  | some m =>
    have hm := List.mem_of_find?_eq_some hfind
    have hp := List.find?_some hfind
    simp only [List.any_eq_true, beq_iff_eq] at hp
    obtain ⟨I, hI, hid⟩ := hp
    have : m = n := eq_of_mem_flatMap_nodup _ _ hF m n D.id hm (List.mem_range.2 hn)
      (List.mem_map.2 ⟨I, hI, hid⟩) (List.mem_map.2 ⟨D, hD, rfl⟩)
    rw [this]

theorem MapVector.find_of_mem_index {α : Type} (M : MapVector (List α)) (k : Nat) (x : α)
    (h : x ∈ MapVector.index M k) : ∃ S, MapVector.find M k = some S ∧ x ∈ S := by
  unfold MapVector.index at h
  cases hf : MapVector.find M k with
  | none => rw [hf] at h; cases h
  | some S => rw [hf] at h; exact ⟨S, rfl, h⟩

/-! ## Tracked values -/

theorem allTracked_index (M : MapVector ValueSet) (h : AllTracked M) (k : Nat) :
    ∀ v ∈ MapVector.index M k, v.isTracked = true := by
  intro v hv
  obtain ⟨S, hS, hvS⟩ := MapVector.find_of_mem_index M k v hv
  exact h (k, S) (MapVector.mem_of_find M k S hS) v hvS

theorem MapVector.mem_assign {V : Type} (M : MapVector V) (k : Nat) (v : V) (e : Nat × V)
    (h : e ∈ MapVector.assign M k v) : e ∈ M ∨ e = (k, v) := by
  induction M with
  | nil =>
    simp only [MapVector.assign, List.mem_singleton] at h
    exact Or.inr h
  | cons e0 M ih =>
    obtain ⟨k0, v0⟩ := e0
    simp only [MapVector.assign] at h
    by_cases h0 : k0 = k
    · simp only [h0, if_true, List.mem_cons] at h
      rcases h with h | h
      · exact Or.inr h
      · exact Or.inl (List.mem_cons_of_mem _ h)
    · simp only [h0, if_false, List.mem_cons] at h
      rcases h with h | h
      · exact Or.inl (by rw [h]; exact List.mem_cons_self _ _)
      · rcases ih h with h' | h'
        · exact Or.inl (List.mem_cons_of_mem _ h')
        · exact Or.inr h'

theorem allTracked_assign (M : MapVector ValueSet) (h : AllTracked M) (k : Nat) (S : ValueSet)
    (hS : ∀ v ∈ S, v.isTracked = true) : AllTracked (MapVector.assign M k S) := by
  intro e he v hv
  rcases MapVector.mem_assign M k S e he with h1 | h1
  · exact h e h1 v hv
  · subst h1; exact hS v hv

theorem MapVector.mem_of_mem_insert {V : Type} (M : MapVector V) (k : Nat) (v : V) (e : Nat × V)
    (h : e ∈ MapVector.insert M k v) : e ∈ M ∨ e = (k, v) := by
  unfold MapVector.insert at h
  split at h
  · exact Or.inl h
  · simpa using h

theorem definedInBlock_isTracked (F : Function) (BB : Nat) (v : Value)
    (h : definedInBlock F BB v = true) : v.isTracked = true := by
  cases v <;> first | rfl | (simp [definedInBlock] at h)

/-- The two summaries of a block hold tracked values only. -/
theorem summarizeInst_tracked (insts : List Instruction) :
    ∀ acc : ValueSet × ValueSet,
      (∀ v ∈ acc.1, v.isTracked = true) → (∀ v ∈ acc.2, v.isTracked = true) →
      (∀ v ∈ (List.foldl summarizeInst acc insts).1, v.isTracked = true) ∧
      (∀ v ∈ (List.foldl summarizeInst acc insts).2, v.isTracked = true) := by
  induction insts with
  | nil => intro acc h1 h2; exact ⟨h1, h2⟩
  | cons I insts ih =>
    intro acc h1 h2
    simp only [List.foldl_cons]
    apply ih
    · simp only [summarizeInst]
      split
      · exact h1
      · have key : ∀ (ops : List Value) (U : ValueSet), (∀ v ∈ U, v.isTracked = true) →
            ∀ v ∈ List.foldl
              (fun BBUEVar v =>
                if !decide (v ∈ acc.2) && v.isTracked then SmallPtrSet.insert BBUEVar v
                else BBUEVar) U ops, v.isTracked = true := by
          intro ops
          induction ops with
          | nil => intro U hU; exact hU
          | cons w ops ihw =>
            intro U hU
            simp only [List.foldl_cons]
            apply ihw
            split
            · rename_i hc
              simp only [Bool.and_eq_true] at hc
              intro v hv
              rcases (SmallPtrSet.mem_insert _ _ _).1 hv with h | h
              · exact hU v h
              · rw [h]; exact hc.2
            · exact hU
        exact key _ _ h1
    · simp only [summarizeInst]
      split
      · intro v hv
        rcases (SmallPtrSet.mem_insert _ _ _).1 hv with h | h
        · exact h2 v h
        · rw [h]; rfl
      · exact h2

theorem mem_foldl_insert_range {V : Type} (f : Nat → V) (n : Nat) :
    ∀ e ∈ List.foldl (fun (M : MapVector V) BB => MapVector.insert M BB (f BB)) []
      (List.range n), e.2 = f e.1 := by
  induction n with
  | zero => intro e he; simp at he
  | succ n ih =>
    intro e he
    rw [List.range_succ, List.foldl_append] at he
    simp only [List.foldl_cons, List.foldl_nil] at he
    rcases MapVector.mem_of_mem_insert _ _ _ _ he with h | h
    · exact ih e h
    · rw [h]

theorem allTracked_phase1 (F : Function) :
    AllTracked (phase1 F).UEVar ∧ AllTracked (phase1 F).VarKill ∧
      AllTracked (phase1 F).LiveOut := by
  rw [phase1_eq]
  refine ⟨?_, ?_, ?_⟩
  · intro e he v hv
    rw [mem_foldl_insert_range _ _ e he] at hv
    exact (summarizeInst_tracked _ ([], []) (by simp) (by simp)).1 v hv
  · intro e he v hv
    rw [mem_foldl_insert_range _ _ e he] at hv
    exact (summarizeInst_tracked _ ([], []) (by simp) (by simp)).2 v hv
  · intro e he v hv
    rw [mem_foldl_insert_range _ _ e he] at hv
    cases hv

theorem allTracked_newLiveOut (F : Function) (UEVar VarKill L : BBLiveOutSet)
    (hU : AllTracked UEVar) (hL : AllTracked L) (BB : Nat) :
    ∀ v ∈ newLiveOut F UEVar VarKill L BB, v.isTracked = true := by
  intro v hv
  rw [mem_newLiveOut] at hv
  obtain ⟨s, _, h | h⟩ := hv
  · exact allTracked_index L hL s v h.1
  · exact allTracked_index UEVar hU s v h

theorem allTracked_phiCorrection (F : Function) (L : BBLiveOutSet) (h : AllTracked L) :
    AllTracked (phiCorrection F L) := by
  unfold phiCorrection
  have step : ∀ (BB : Nat) (ops : List Value) (L : BBLiveOutSet), AllTracked L →
      AllTracked (List.foldl
        (fun (L : BBLiveOutSet) v =>
          if definedInBlock F BB v then
            MapVector.assign L BB (SmallPtrSet.insert (MapVector.index L BB) v)
          else L) L ops) := by
    intro BB ops
    induction ops with
    | nil => intro L hL; exact hL
    | cons w ops ih =>
      intro L hL
      simp only [List.foldl_cons]
      apply ih
      split
      · rename_i hw
        apply allTracked_assign L hL
        intro v hv
        rcases (SmallPtrSet.mem_insert _ _ _).1 hv with h1 | h1
        · exact allTracked_index L hL BB v h1
        · rw [h1]; exact definedInBlock_isTracked F BB w hw
      · exact hL
  have stepI : ∀ (BB : Nat) (insts : List Instruction) (L : BBLiveOutSet), AllTracked L →
      AllTracked (List.foldl
        (fun (L : BBLiveOutSet) (Inst : Instruction) =>
          if Inst.isPHI then
            List.foldl
              (fun (L : BBLiveOutSet) v =>
                if definedInBlock F BB v then
                  MapVector.assign L BB (SmallPtrSet.insert (MapVector.index L BB) v)
                else L) L Inst.operands
          else L) L insts) := by
    intro BB insts
    induction insts with
    | nil => intro L hL; exact hL
    | cons I insts ih =>
      intro L hL
      simp only [List.foldl_cons]
      apply ih
      split
      · exact step BB _ L hL
      · exact hL
  generalize List.range F.size = bbs
  induction bbs generalizing L with
  | nil => exact h
  | cons BB bbs ih =>
    simp only [List.foldl_cons]
    exact ih _ (stepI BB _ L h)

theorem allTracked_scan (l : List Instruction) :
    ∀ st : InstLiveOutSet × ValueSet, AllTracked st.1 → (∀ v ∈ st.2, v.isTracked = true) →
      AllTracked (List.foldl scanInst st l).1 ∧
        ∀ v ∈ (List.foldl scanInst st l).2, v.isTracked = true := by
  induction l with
  | nil => intro st h1 h2; exact ⟨h1, h2⟩
  | cons I l ih =>
    intro st h1 h2
    simp only [List.foldl_cons]
    apply ih
    · exact allTracked_assign _ h1 _ _ h2
    · intro v hv
      simp only [scanInst, SmallPtrSet.mem_erase, mem_foldl_insert_tracked] at hv
      rcases hv.1 with h | h
      · exact h2 v h
      · exact h.2

theorem allTracked_phase4 (F : Function) (L : BBLiveOutSet) (h : AllTracked L) :
    AllTracked (phase4 F L) := by
  unfold phase4
  have key : ∀ (bbs : List Nat) (M : InstLiveOutSet), AllTracked M →
      AllTracked (List.foldl
        (fun InstVSet BB =>
          (List.foldl scanInst (InstVSet, MapVector.index L BB) (F.insts BB).reverse).1)
        M bbs) := by
    intro bbs
    induction bbs with
    | nil => intro M hM; exact hM
    | cons BB bbs ih =>
      intro M hM
      simp only [List.foldl_cons]
      exact ih _ (allTracked_scan _ (M, MapVector.index L BB) hM (allTracked_index L h BB)).1
  exact key _ [] (by intro e he; cases he)


theorem allTracked_phase2 (F : Function) :
    ∃ L, phase2 F = some L ∧ AllTracked L := by
  obtain ⟨hU, _, hL0⟩ := allTracked_phase1 F
  obtain ⟨L, hL, _, hP, _, _⟩ := liveLoop_spec F (phase1 F).UEVar (phase1 F).VarKill
    AllTracked
    (fun L BB _ hL _ => allTracked_assign L hL BB _ (allTracked_newLiveOut F _ _ L hU hL BB))
    (phase1 F).LiveOut (liveInv_phase1 F) hL0
  exact ⟨L, hL, hP⟩

/-! ## The claims on the phi correction and on tracked values -/

/-- C14: in a function whose instructions are distinct, an operand of a phi
of block `n` that is an instruction of `n` is a member of the returned
`LiveOut(n)`, whatever the `UEVar` sets of the successors. -/
theorem C14_phi_operand_in_liveOut (F : Function) (hF : F.InstIdsNodup) (n : Nat)
    (Phi D : Instruction) (hPhi : Phi ∈ F.insts n) (hphi : Phi.isPHI = true)
    (hD : D ∈ F.insts n) (hv : Value.instruction D.id ∈ Phi.operands) :
    ∃ res, LivenessAnalysis.runOnFunction F = some res ∧
      ∃ S, MapVector.find res.ResultBBLiveOut n = some S ∧ Value.instruction D.id ∈ S := by
  obtain ⟨L, hL, _⟩ := phase2_spec F
  refine ⟨_, liveness_runOnFunction_eq F L hL, ?_⟩
  apply MapVector.find_of_mem_index
  rw [mem_index_phiCorrection]
  right
  refine ⟨lt_size_of_mem_insts F n Phi hPhi, Phi, hPhi, hphi, hv, ?_⟩
  simp [definedInBlock, getParent_of_mem F hF n D hD]

/-- C14 at the loop block of `loopFunction`, for the phi `%1` and its
operand `%2`. -/
theorem C14_phi_operand_in_liveOut_witness :
    loopFunction.InstIdsNodup ∧
    (⟨1, true, [Value.constant 0, Value.instruction 2], true⟩ : Instruction) ∈
      loopFunction.insts 1 ∧
    (⟨2, false, [Value.instruction 1, Value.constant 1], true⟩ : Instruction) ∈
      loopFunction.insts 1 ∧
    ∃ res, LivenessAnalysis.runOnFunction loopFunction = some res ∧
      ∃ S, MapVector.find res.ResultBBLiveOut 1 = some S ∧ Value.instruction 2 ∈ S :=
  ⟨by decide, by decide, by decide,
    C14_phi_operand_in_liveOut loopFunction (by decide) 1
      ⟨1, true, [Value.constant 0, Value.instruction 2], true⟩
      ⟨2, false, [Value.instruction 1, Value.constant 1], true⟩
      (by decide) rfl (by decide) (by decide)⟩

/-- C15: a value that is a constant, a global or a basic block is in no set
of the `UEVar` map, of the `VarKill` map, of the returned `LiveOut` map and of
the returned per-instruction map. -/
theorem C15_untracked_values_absent (F : Function) (v : Value)
    (hv : (∃ c, v = Value.constant c) ∨ (∃ g, v = Value.globalVariable g) ∨
      (∃ k, v = Value.basicBlock k)) :
    ∃ res, LivenessAnalysis.runOnFunction F = some res ∧
      (∀ e ∈ (phase1 F).UEVar, v ∉ e.2) ∧ (∀ e ∈ (phase1 F).VarKill, v ∉ e.2) ∧
      (∀ e ∈ res.ResultBBLiveOut, v ∉ e.2) ∧ (∀ e ∈ res.ResultInstLiveOut, v ∉ e.2) := by
  have hnt : v.isTracked = false := by
    rcases hv with ⟨c, rfl⟩ | ⟨g, rfl⟩ | ⟨k, rfl⟩ <;> rfl
  have habs : ∀ M : MapVector ValueSet, AllTracked M → ∀ e ∈ M, v ∉ e.2 := by
    intro M hM e he hin
    rw [hM e he v hin] at hnt
    cases hnt
  obtain ⟨hU, hK, _⟩ := allTracked_phase1 F
  obtain ⟨L, hL, hLt⟩ := allTracked_phase2 F
  have h3 := allTracked_phiCorrection F L hLt
  exact ⟨_, liveness_runOnFunction_eq F L hL, habs _ hU, habs _ hK, habs _ h3,
    habs _ (allTracked_phase4 F _ h3)⟩

/-- C15 at `flowFunction`, for the constant `1`. -/
theorem C15_untracked_values_absent_witness :
    ((∃ c, Value.constant 1 = Value.constant c) ∨
      (∃ g, Value.constant 1 = Value.globalVariable g) ∨
      (∃ k, Value.constant 1 = Value.basicBlock k)) ∧
    ∃ res, LivenessAnalysis.runOnFunction flowFunction = some res ∧
      (∀ e ∈ (phase1 flowFunction).UEVar, Value.constant 1 ∉ e.2) ∧
      (∀ e ∈ (phase1 flowFunction).VarKill, Value.constant 1 ∉ e.2) ∧
      (∀ e ∈ res.ResultBBLiveOut, Value.constant 1 ∉ e.2) ∧
      (∀ e ∈ res.ResultInstLiveOut, Value.constant 1 ∉ e.2) :=
  ⟨Or.inl ⟨1, rfl⟩,
    C15_untracked_values_absent flowFunction (Value.constant 1) (Or.inl ⟨1, rfl⟩)⟩


/-! ## The claims on the error paths of the dominator analysis -/

/-- C16, as stated, fails at the result for the diamond and the unknown
block 7: `find` returns the end iterator and the accessor dereferences it; the
outcome is not a lookup error. -/
theorem C16_unknown_node_no_lookup_error :
    ∃ res, DominatorsAnalysis.runOnFunction diamondFunction = some res ∧
      MapVector.find res.dom 7 = none ∧
      res.getBBDominatorsOutcome 7 = Outcome.undefinedBehaviour ∧
      res.getBBDominatorsOutcome 7 ≠ Outcome.lookupError :=
  ⟨_, rfl, by decide, by decide, by decide⟩

/-- C16, amended: the accessor returns the set of every block of the analysed
function; for any other block it dereferences the end iterator of the map, and
for no block does it signal a lookup error. -/
theorem C16_lookup_outcomes (F : Function) :
    ∃ res, DominatorsAnalysis.runOnFunction F = some res ∧
      ∀ BB, (BB < F.size → ∃ S, res.getBBDominators BB = some S ∧
          res.getBBDominatorsOutcome BB = Outcome.returns S) ∧
        (F.size ≤ BB → res.getBBDominatorsOutcome BB = Outcome.undefinedBehaviour) ∧
        res.getBBDominatorsOutcome BB ≠ Outcome.lookupError := by
  obtain ⟨res, hres, _, hinv, _, _⟩ := runOnFunction_spec F
  refine ⟨res, hres, ?_⟩
  intro BB
  refine ⟨?_, ?_, ?_⟩
  · intro hBB
    have h := getBBDominators_eq F res hinv BB hBB
    refine ⟨_, h, ?_⟩
    unfold ResultDominators.getBBDominators at h
    simp only [ResultDominators.getBBDominatorsOutcome, h]
  · intro hBB
    have hnone : MapVector.find res.dom BB = none := by
      rw [MapVector.find_eq_none_iff, hinv.keys]
      simp only [List.mem_range]
      omega
    simp only [ResultDominators.getBBDominatorsOutcome, hnone]
  · unfold ResultDominators.getBBDominatorsOutcome
    cases MapVector.find res.dom BB <;> simp

/-- C17, as stated, fails at the function without blocks: the solver returns
a result, the empty map. -/
theorem C17_no_blocks_returns_empty_map :
    (DominatorsAnalysis.runOnFunction ⟨[]⟩).isSome = true ∧
      DominatorsAnalysis.runOnFunction ⟨[]⟩ = some ⟨[]⟩ :=
  ⟨by decide, by decide⟩

/-- C17, amended: on a function without basic blocks the solver signals no
error and picks no entry; it returns the empty dominator map. -/
theorem C17_no_blocks_no_error (F : Function) (h : F.size = 0) :
    DominatorsAnalysis.runOnFunction F = some ⟨[]⟩ := by
  obtain ⟨blocks⟩ := F
  have hb : blocks = [] := List.length_eq_zero.1 h
  subst hb
  rfl

/-- C17, amended, at the function without blocks. -/
theorem C17_no_blocks_no_error_witness :
    (⟨[]⟩ : Function).size = 0 ∧ DominatorsAnalysis.runOnFunction ⟨[]⟩ = some ⟨[]⟩ :=
  ⟨rfl, C17_no_blocks_no_error ⟨[]⟩ rfl⟩

/-! ## The returned map as the greatest consistent map -/

theorem index_eq_nil_of_size_le (F : Function) (dom : Dominators) (h : DomInv F dom) (b : Nat)
    (hb : F.size ≤ b) : MapVector.index dom b = [] := by
  have hnone : MapVector.find dom b = none := by
    rw [MapVector.find_eq_none_iff, h.keys]
    simp only [List.mem_range]
    omega
  simp only [MapVector.index, hnone, Option.getD_none]
  rfl

/-- Every map `d` within the blocks whose entry set is within `{entry}` and
whose other sets are within their recomputation is contained, set by set, in
the returned map. -/
theorem runOnFunction_greatest (F : Function) (d : Dominators)
    (hbound : ∀ b x, x ∈ MapVector.index d b → b < F.size ∧ x < F.size)
    (hentry : ∀ x, x ∈ MapVector.index d 0 → x = 0)
    (hpost : ∀ b, 0 < b → b < F.size → ∀ x, x ∈ MapVector.index d b →
      x = b ∨ (F.preds b ≠ [] ∧ ∀ p ∈ F.preds b, x ∈ MapVector.index d p)) :
    ∃ res, DominatorsAnalysis.runOnFunction F = some res ∧
      ∀ b x, x ∈ MapVector.index d b → x ∈ MapVector.index res.dom b := by
  obtain ⟨r, hr, _, hP, _, _⟩ := domLoop_spec F
    (fun dom => ∀ b x, x ∈ MapVector.index d b → x ∈ MapVector.index dom b)
    (by
      intro b x hx
      obtain ⟨hb, hxN⟩ := hbound b x hx
      rw [index_initDom, if_pos hb]
      split
      · rename_i h0
        subst h0
        simp [hentry x hx]
      · rw [mem_foldl_insert]
        exact Or.inr (List.mem_range.2 hxN))
    (by
      intro dom BB hinv hP hb0 hbN b x hx
      rw [MapVector.index_assign]
      split
      · rename_i hb
        subst hb
        rw [mem_newDomSet F dom b hinv.nodup]
        rcases hpost b hb0 hbN x hx with h | ⟨h1, h2⟩
        · exact Or.inl h
        · exact Or.inr ⟨h1, fun p hp => hP p x (h2 p hp)⟩
      · exact hP b x hx)
  exact ⟨⟨r⟩, by simp [DominatorsAnalysis.runOnFunction, hr], hP⟩

/-- The returned map of `F'` is contained in the returned map of `F` when the
two functions have the same blocks and, block by block, the same predecessors
up to order. -/
theorem runOnFunction_le_of_perm (F F' : Function) (hsize : F'.size = F.size)
    (hperm : ∀ b, List.Perm (F.preds b) (F'.preds b))
    (res res' : ResultDominators) (hres : DominatorsAnalysis.runOnFunction F = some res)
    (hres' : DominatorsAnalysis.runOnFunction F' = some res') :
    ∀ b x, x ∈ MapVector.index res'.dom b → x ∈ MapVector.index res.dom b := by
  obtain ⟨r', hr', _, hinv', _, hst'⟩ := runOnFunction_spec F'
  rw [hres'] at hr'
  cases hr'
  obtain ⟨r, hr, hle⟩ := runOnFunction_greatest F res'.dom
    (by
      intro b x hx
      refine ⟨?_, by rw [← hsize]; exact hinv'.bound b x hx⟩
      by_contra hb
      rw [index_eq_nil_of_size_le F' _ hinv' b (by omega)] at hx
      cases hx)
    (by
      intro x hx
      by_cases h0 : 0 < F'.size
      · rw [hinv'.entry h0] at hx
        simpa using hx
      · rw [index_eq_nil_of_size_le F' _ hinv' 0 (by omega)] at hx
        cases hx)
    (by
      intro b hb0 hbN x hx
      rw [hst' b hb0 (by omega), mem_newDomSet F' _ b hinv'.nodup] at hx
      rcases hx with h | ⟨h1, h2⟩
      · exact Or.inl h
      · right
        refine ⟨?_, fun p hp => h2 p ((hperm b).mem_iff.1 hp)⟩
        intro he
        apply h1
        have := hperm b
        rw [he] at this
        exact List.Perm.nil_eq this |>.symm)
  rw [hres] at hr
  cases hr
  exact hle

/-! ## The claims on visitation order and on the trace of the iteration -/

/-- C18: two functions with the same blocks whose predecessor lists agree up
to order get the same dominator map: the same keys in the same order and, at
every block, sets that compare equal. -/
theorem C18_pred_order_irrelevant (F F' : Function) (hsize : F'.size = F.size)
    (hperm : ∀ b, List.Perm (F.preds b) (F'.preds b)) :
    ∃ res res', DominatorsAnalysis.runOnFunction F = some res ∧
      DominatorsAnalysis.runOnFunction F' = some res' ∧
      List.map Prod.fst res.dom = List.map Prod.fst res'.dom ∧
      ∀ b, SmallPtrSet.ne (MapVector.index res.dom b) (MapVector.index res'.dom b) = false ∧
        ∀ x, x ∈ MapVector.index res.dom b ↔ x ∈ MapVector.index res'.dom b := by
  obtain ⟨res, hres, _, hinv, _, _⟩ := runOnFunction_spec F
  obtain ⟨res', hres', _, hinv', _, _⟩ := runOnFunction_spec F'
  have h1 := runOnFunction_le_of_perm F F' hsize hperm res res' hres hres'
  have h2 := runOnFunction_le_of_perm F' F hsize.symm (fun b => (hperm b).symm) res' res
    hres' hres
  refine ⟨res, res', hres, hres', by rw [hinv.keys, hinv'.keys, hsize], ?_⟩
  intro b
  have hiff : ∀ x, x ∈ MapVector.index res.dom b ↔ x ∈ MapVector.index res'.dom b :=
    fun x => ⟨h2 b x, h1 b x⟩
  exact ⟨(SmallPtrSet.ne_eq_false_iff _ _).2 hiff, hiff⟩


/-- C18 at the diamond and the diamond with the predecessors of the join
block swapped. -/
theorem C18_pred_order_irrelevant_witness :
    diamondSwapped.size = diamondFunction.size ∧
    (∀ b, List.Perm (diamondFunction.preds b) (diamondSwapped.preds b)) ∧
    ∃ res res', DominatorsAnalysis.runOnFunction diamondFunction = some res ∧
      DominatorsAnalysis.runOnFunction diamondSwapped = some res' ∧
      List.map Prod.fst res.dom = List.map Prod.fst res'.dom ∧
      ∀ b, SmallPtrSet.ne (MapVector.index res.dom b) (MapVector.index res'.dom b) = false ∧
        ∀ x, x ∈ MapVector.index res.dom b ↔ x ∈ MapVector.index res'.dom b := by
  have hperm : ∀ b, List.Perm (diamondFunction.preds b) (diamondSwapped.preds b) := by
    intro b
    match b with
    | 0 => exact List.Perm.refl _
    | 1 => exact List.Perm.refl _
    | 2 => exact List.Perm.refl _
    | 3 => exact List.Perm.swap 2 1 []
    | n + 4 => exact List.Perm.refl _
  exact ⟨rfl, hperm, C18_pred_order_irrelevant diamondFunction diamondSwapped rfl hperm⟩

theorem domInv_of_domReach (F : Function) (dom : Dominators) (h : DomReach F dom) :
    DomInv F dom := by
  induction h with
  | init => exact domInv_initDom F
  | @visit d changed BB _ h0 hN ih =>
    cases hne : SmallPtrSet.ne (MapVector.index d BB) (newDomSet F d BB) with
    | false =>
      have : domVisit F (d, changed) BB = (d, changed) := by simp [domVisit, hne]
      rw [this]
      exact ih
    | true =>
      have : domVisit F (d, changed) BB =
          (MapVector.assign d BB (newDomSet F d BB), true) := by simp [domVisit, hne]
      rw [this]
      exact domInv_assign F d BB ih h0 hN

/-- Every map that the sweeps pass through occurs in the sense of `DomReach`:
the map after any number of visits of non-entry blocks, started from a map
that occurs. -/
theorem domReach_foldl (F : Function) (L : List Nat) (hL : ∀ b ∈ L, 0 < b ∧ b < F.size) :
    ∀ st : Dominators × Bool, DomReach F st.1 →
      DomReach F (List.foldl (domVisit F) st L).1 := by
  induction L with
  | nil => intro st h; exact h
  | cons b L ih =>
    intro st h
    simp only [List.foldl_cons]
    apply ih (fun x hx => hL x (List.mem_cons_of_mem _ hx))
    have hb := hL b (List.mem_cons_self _ _)
    exact DomReach.visit st.2 b h hb.1 hb.2

theorem domReach_sweep (F : Function) (dom : Dominators) (h : DomReach F dom) :
    DomReach F (domSweep F dom).1 :=
  domReach_foldl F _ (fun _ hb => (mem_tail_range _ _).1 hb) (dom, false) h

theorem domReach_whileChanged (F : Function) :
    ∀ (fuel : Nat) (dom r : Dominators), DomReach F dom →
      whileChanged (domSweep F) fuel dom = some r → DomReach F r := by
  intro fuel
  induction fuel with
  | zero => intro dom r _ h; cases h
  | succ n ih =>
    intro dom r hd h
    simp only [whileChanged] at h
    split at h
    · exact ih _ r (domReach_sweep F dom hd) h
    · cases h
      exact domReach_sweep F dom hd

/-- C19: in every map that occurs during the dominator iteration, every set
is within the blocks of the function, and whenever the visit of a non-entry
block `BB` replaces its set (the new set compares different), the new set is a
strict subset of the set it replaces. -/
theorem C19_sets_only_shrink (F : Function) (dom : Dominators) (h : DomReach F dom) :
    (∀ k x, x ∈ MapVector.index dom k → x < F.size) ∧
    ∀ BB, 0 < BB → BB < F.size →
      SmallPtrSet.ne (MapVector.index dom BB) (newDomSet F dom BB) = true →
      (domVisit F (dom, false) BB).1 = MapVector.assign dom BB (newDomSet F dom BB) ∧
      (∀ x, x ∈ newDomSet F dom BB → x ∈ MapVector.index dom BB) ∧
      ∃ x, x ∈ MapVector.index dom BB ∧ x ∉ newDomSet F dom BB := by
  have hinv := domInv_of_domReach F dom h
  refine ⟨hinv.bound, ?_⟩
  intro BB h0 hN hne
  refine ⟨by simp [domVisit, hne], hinv.desc BB h0 hN, ?_⟩
  by_contra hcon
  have hall : ∀ x, x ∈ MapVector.index dom BB ↔ x ∈ newDomSet F dom BB := by
    intro x
    constructor
    · intro hx
      by_contra hx'
      exact hcon ⟨x, hx, hx'⟩
    · exact hinv.desc BB h0 hN x
  rw [(SmallPtrSet.ne_eq_false_iff _ _).2 hall] at hne
  cases hne

/-- C19 at the initial map of `deadPredFunction`, where the visit of block 2
replaces its set. -/
theorem C19_sets_only_shrink_witness :
    DomReach deadPredFunction (initDom deadPredFunction) ∧
    SmallPtrSet.ne (MapVector.index (initDom deadPredFunction) 2)
      (newDomSet deadPredFunction (initDom deadPredFunction) 2) = true ∧
    (∀ k x, x ∈ MapVector.index (initDom deadPredFunction) k → x < deadPredFunction.size) ∧
    ∀ BB, 0 < BB → BB < deadPredFunction.size →
      SmallPtrSet.ne (MapVector.index (initDom deadPredFunction) BB)
        (newDomSet deadPredFunction (initDom deadPredFunction) BB) = true →
      (domVisit deadPredFunction (initDom deadPredFunction, false) BB).1 =
        MapVector.assign (initDom deadPredFunction) BB
          (newDomSet deadPredFunction (initDom deadPredFunction) BB) ∧
      (∀ x, x ∈ newDomSet deadPredFunction (initDom deadPredFunction) BB →
        x ∈ MapVector.index (initDom deadPredFunction) BB) ∧
      ∃ x, x ∈ MapVector.index (initDom deadPredFunction) BB ∧
        x ∉ newDomSet deadPredFunction (initDom deadPredFunction) BB :=
  ⟨DomReach.init, by decide,
    C19_sets_only_shrink deadPredFunction (initDom deadPredFunction) DomReach.init⟩

/-! ## The block summaries of Phase 1 -/

theorem mem_foldl_uevar (K : ValueSet) (ops : List Value) :
    ∀ (U : ValueSet) (v : Value),
      v ∈ List.foldl
        (fun BBUEVar v =>
          if !decide (v ∈ K) && v.isTracked then SmallPtrSet.insert BBUEVar v else BBUEVar)
        U ops ↔
      v ∈ U ∨ (v ∈ ops ∧ v ∉ K ∧ v.isTracked = true) := by
  induction ops with
  | nil => intro U v; simp
  | cons w ops ih =>
    intro U v
    simp only [List.foldl_cons, ih, List.mem_cons]
    by_cases hc : (!decide (w ∈ K) && w.isTracked) = true
    · rw [if_pos hc]
      simp only [Bool.and_eq_true, Bool.not_eq_true', decide_eq_false_iff_not] at hc
      rw [SmallPtrSet.mem_insert]
      constructor
      · rintro ((h | h) | ⟨h1, h2⟩)
        · exact Or.inl h
        · subst h; exact Or.inr ⟨Or.inl rfl, hc.1, hc.2⟩
        · exact Or.inr ⟨Or.inr h1, h2⟩
      · rintro (h | ⟨h1 | h1, h2⟩)
        · exact Or.inl (Or.inl h)
        · exact Or.inl (Or.inr h1)
        · exact Or.inr ⟨h1, h2⟩
    · rw [if_neg hc]
      simp only [Bool.and_eq_true, Bool.not_eq_true', decide_eq_false_iff_not, not_and] at hc
      constructor
      · rintro (h | ⟨h1, h2⟩)
        · exact Or.inl h
        · exact Or.inr ⟨Or.inr h1, h2⟩
      · rintro (h | ⟨h1 | h1, h2⟩)
        · exact Or.inl h
        · subst h1; exact absurd h2.2 (hc h2.1)
        · exact Or.inr ⟨h1, h2⟩

/-- The two summaries after the scan of the instructions `l` from the pair
`acc`. -/
theorem summarizeInst_spec (l : List Instruction) :
    ∀ (acc : ValueSet × ValueSet) (v : Value),
      (v ∈ (List.foldl summarizeInst acc l).2 ↔
        v ∈ acc.2 ∨ ∃ I ∈ l, I.hasUsers = true ∧ v = Value.instruction I.id) ∧
      (v ∈ (List.foldl summarizeInst acc l).1 ↔
        v ∈ acc.1 ∨ (v.isTracked = true ∧ v ∉ acc.2 ∧
          ∃ pre i post, l = pre ++ i :: post ∧ i.isPHI = false ∧ v ∈ i.operands ∧
            ∀ I ∈ pre, I.hasUsers = true → v ≠ Value.instruction I.id)) := by
  induction l with
  | nil =>
    intro acc v
    simp
  | cons I rest ih =>
    intro acc v
    obtain ⟨ih1, ih2⟩ := ih (summarizeInst acc I) v
    simp only [List.foldl_cons]
    have hK : v ∈ (summarizeInst acc I).2 ↔
        v ∈ acc.2 ∨ (I.hasUsers = true ∧ v = Value.instruction I.id) := by
      simp only [summarizeInst]
      split
      · rename_i hu
        rw [SmallPtrSet.mem_insert]
        simp [hu]
      · rename_i hu
        simp [hu]
    have hU : v ∈ (summarizeInst acc I).1 ↔
        v ∈ acc.1 ∨ (I.isPHI = false ∧ v ∈ I.operands ∧ v ∉ acc.2 ∧ v.isTracked = true) := by
      simp only [summarizeInst]
      split
      · rename_i hp
        simp [hp]
      · rename_i hp
        rw [mem_foldl_uevar]
        simp [hp]
    refine ⟨?_, ?_⟩
    · rw [ih1, hK]
      simp only [List.mem_cons, exists_eq_or_imp]
      constructor
      · rintro ((h | h) | h)
        · exact Or.inl h
        · exact Or.inr (Or.inl h)
        · exact Or.inr (Or.inr h)
      · rintro (h | h | h)
        · exact Or.inl (Or.inl h)
        · exact Or.inl (Or.inr h)
        · exact Or.inr h
    · rw [ih2, hU, hK]
      constructor
      · rintro ((h | ⟨h1, h2, h3, h4⟩) | ⟨h1, h2, pre, i, post, h3, h4, h5, h6⟩)
        · exact Or.inl h
        · exact Or.inr ⟨h4, h3, [], I, rest, rfl, h1, h2, by simp⟩
        · refine Or.inr ⟨h1, fun h => h2 (Or.inl h), I :: pre, i, post, by rw [h3]; rfl,
            h4, h5, ?_⟩
          intro I' hI' hu
          rcases List.mem_cons.1 hI' with he | he
          · subst he
            intro hv
            exact h2 (Or.inr ⟨hu, hv⟩)
          · exact h6 I' he hu
      · rintro (h | ⟨h1, h2, pre, i, post, h3, h4, h5, h6⟩)
        · exact Or.inl (Or.inl h)
        · cases pre with
          | nil =>
            simp only [List.nil_append, List.cons.injEq] at h3
            obtain ⟨e1, _⟩ := h3
            subst e1
            exact Or.inl (Or.inr ⟨h4, h5, h2, h1⟩)
          | cons p0 pre' =>
            simp only [List.cons_append, List.cons.injEq] at h3
            obtain ⟨e1, e2⟩ := h3
            subst e1
            refine Or.inr ⟨h1, ?_, pre', i, post, e2, h4, h5,
              fun I' hI' => h6 I' (List.mem_cons_of_mem _ hI')⟩
            rintro (h | ⟨hu, hv⟩)
            · exact h2 h
            · exact h6 I (List.mem_cons_self _ _) hu hv

theorem insts_eq_nil_of_size_le (F : Function) (b : Nat) (hb : F.size ≤ b) :
    F.insts b = [] := by
  unfold Function.insts
  rw [List.getElem?_eq_none (by unfold Function.size at hb; omega)]

theorem index_phase1_UEVar (F : Function) (b : Nat) :
    MapVector.index (phase1 F).UEVar b =
      (List.foldl summarizeInst ([], []) (F.insts b)).1 := by
  rw [phase1_eq]
  simp only [MapVector.index, find_foldl_insert_range]
  split
  · rfl
  · rename_i hb
    rw [insts_eq_nil_of_size_le F b (by omega)]
    rfl

theorem index_phase1_VarKill (F : Function) (b : Nat) :
    MapVector.index (phase1 F).VarKill b =
      (List.foldl summarizeInst ([], []) (F.insts b)).2 := by
  rw [phase1_eq]
  simp only [MapVector.index, find_foldl_insert_range]
  split
  · rfl
  · rename_i hb
    rw [insts_eq_nil_of_size_le F b (by omega)]
    rfl

/-! ## The claim on the block summaries -/

/-- C20: the summaries of Phase 1 are their reference definitions.  The
members of `VarKill(b)` are the instructions of `b` with a use; the members of
`UEVar(b)` are the tracked values that are an operand of some non-phi
instruction `i` of `b` and not an instruction with a use strictly before `i` in
`b`; a value that only phis of `b` have as operand is not in `UEVar(b)`. -/
theorem C20_block_summaries (F : Function) (b : Nat) (v : Value) :
    (v ∈ MapVector.index (phase1 F).VarKill b ↔ refVarKill F b v) ∧
    (v ∈ MapVector.index (phase1 F).UEVar b ↔ refUEVar F b v) ∧
    ((∀ i ∈ F.insts b, v ∈ i.operands → i.isPHI = true) →
      v ∉ MapVector.index (phase1 F).UEVar b) := by
  obtain ⟨h1, h2⟩ := summarizeInst_spec (F.insts b) ([], []) v
  have hU : v ∈ MapVector.index (phase1 F).UEVar b ↔ refUEVar F b v := by
    rw [index_phase1_UEVar, h2]
    unfold refUEVar
    constructor
    · rintro (h | ⟨h3, _, h4⟩)
      · cases h
      · exact ⟨h3, h4⟩
    · rintro ⟨h3, h4⟩
      exact Or.inr ⟨h3, by simp, h4⟩
  refine ⟨?_, hU, ?_⟩
  · rw [index_phase1_VarKill, h1]
    unfold refVarKill
    simp
  · intro hphi hin
    obtain ⟨_, pre, i, post, hl, hnp, hop, _⟩ := hU.1 hin
    have := hphi i (by rw [hl]; simp) hop
    rw [hnp] at this
    cases this


/-! ## The claims on blocks without predecessors and on multi-root dominance -/

/-- C21: the set returned for a non-entry block without predecessors is
exactly `{n}`: the counting pass over no predecessor collects nothing, so the
set does not stay at its initial value, the set of all blocks; the entry, for
one, is not in it. -/
theorem C21_no_predecessor_set (F : Function) (n : Nat) (h0 : 0 < n) (hN : n < F.size)
    (hp : F.preds n = []) :
    ∃ res, DominatorsAnalysis.runOnFunction F = some res ∧
      ∃ S, res.getBBDominators n = some S ∧ (∀ x, x ∈ S ↔ x = n) ∧ 0 ∉ S ∧
        newDomSet F res.dom n = [n] := by
  obtain ⟨res, hres, _, hinv, _, hst⟩ := runOnFunction_spec F
  have hmem : ∀ x, x ∈ MapVector.index res.dom n ↔ x = n := by
    intro x
    rw [hst n h0 hN x, mem_newDomSet F res.dom n hinv.nodup]
    constructor
    · rintro (h | ⟨h, _⟩)
      · exact h
      · exact absurd hp h
    · exact Or.inl
  refine ⟨res, hres, _, getBBDominators_eq F res hinv n hN, hmem, ?_, ?_⟩
  · intro h
    have := (hmem 0).1 h
    omega
  · simp [newDomSet, collectPreds, hp, SmallPtrSet.insert]

/-- C21 at the dead block of `deadPredFunction`. -/
theorem C21_no_predecessor_set_witness :
    0 < 1 ∧ 1 < deadPredFunction.size ∧ deadPredFunction.preds 1 = [] ∧
    ∃ res, DominatorsAnalysis.runOnFunction deadPredFunction = some res ∧
      ∃ S, res.getBBDominators 1 = some S ∧ (∀ x, x ∈ S ↔ x = 1) ∧ 0 ∉ S ∧
        newDomSet deadPredFunction res.dom 1 = [1] :=
  ⟨by decide, by decide, by decide,
    C21_no_predecessor_set deadPredFunction 1 (by decide) (by decide) (by decide)⟩

/-- C22: on a function with well-formed predecessor lists the returned map is
multi-root dominance, a root being the entry or a block without predecessors:
a block `n` is in the set of `m` exactly when `n` lies on every path, the
one-block path included, from every root to `m`; the set of a block that no
root reaches holds every block. -/
theorem C22_multi_root_dominance (F : Function) (hF : F.PredsInRange) :
    ∃ res, DominatorsAnalysis.runOnFunction F = some res ∧
      ∀ m, m < F.size → ∃ S, res.getBBDominators m = some S ∧
        (∀ n, n < F.size → (n ∈ S ↔ MultiDominates F n m)) ∧
        (∀ n, n ∈ S → n < F.size) ∧
        ((∀ r l, IsRoot F r → ¬ CFGPath F r m l) → ∀ n, n < F.size → n ∈ S) := by
  obtain ⟨res, hres, hiff⟩ := runOnFunction_multiDom F hF
  obtain ⟨res', hres', _, hinv, _, _⟩ := runOnFunction_spec F
  rw [hres] at hres'
  cases hres'
  refine ⟨res, hres, ?_⟩
  intro m hm
  refine ⟨_, getBBDominators_eq F res hinv m hm, fun n hn => hiff n m hn hm,
    fun n hn => hinv.bound m n hn, ?_⟩
  intro hno n hn
  exact (hiff n m hn hm).2 (fun r l hr hl => absurd hl (hno r l hr))

/-- C22 at `deadPredFunction`. -/
theorem C22_multi_root_dominance_witness :
    deadPredFunction.PredsInRange ∧
    ∃ res, DominatorsAnalysis.runOnFunction deadPredFunction = some res ∧
      ∀ m, m < deadPredFunction.size → ∃ S, res.getBBDominators m = some S ∧
        (∀ n, n < deadPredFunction.size → (n ∈ S ↔ MultiDominates deadPredFunction n m)) ∧
        (∀ n, n ∈ S → n < deadPredFunction.size) ∧
        ((∀ r l, IsRoot deadPredFunction r → ¬ CFGPath deadPredFunction r m l) →
          ∀ n, n < deadPredFunction.size → n ∈ S) :=
  ⟨by decide, C22_multi_root_dominance deadPredFunction (by decide)⟩

/-! ## The claim on the returned map and the phi correction -/

theorem exists_inst_of_getParent (F : Function) (id b : Nat) (h : F.getParent id = some b) :
    b < F.size ∧ ∃ I ∈ F.insts b, I.id = id := by
  unfold Function.getParent at h
  have hm := List.mem_of_find?_eq_some h
  have hp := List.find?_some h
  simp only [List.any_eq_true, beq_iff_eq] at hp
  exact ⟨List.mem_range.1 hm, hp⟩

/-- An operand of a phi that the phi correction adds to the set of block `s`
is in `VarKill(s)` when the instructions whose values are used are flagged as
having a user. -/
theorem phi_value_in_varKill (F : Function) (hF : OperandsHaveUsers F) (s : Nat)
    (Phi : Instruction) (v : Value) (hPhi : Phi ∈ F.insts s) (hv : v ∈ Phi.operands)
    (hd : definedInBlock F s v = true) :
    v ∈ MapVector.index (phase1 F).VarKill s := by
  cases v with
  | instruction id =>
    simp only [definedInBlock, decide_eq_true_eq] at hd
    obtain ⟨hs, I, hI, hid⟩ := exists_inst_of_getParent F id s hd
    rw [index_phase1_VarKill]
    rw [(summarizeInst_spec (F.insts s) ([], []) (Value.instruction id)).1]
    right
    refine ⟨I, hI, ?_, by rw [hid]⟩
    apply hF s hs I hI
    exact ⟨s, hs, Phi, hPhi, by rw [hid]; exact hv⟩
  | argument _ => simp [definedInBlock] at hd
  | basicBlock _ => simp [definedInBlock] at hd
  | globalVariable _ => simp [definedInBlock] at hd
  | constant _ => simp [definedInBlock] at hd
  | other _ => simp [definedInBlock] at hd

/-- In a function whose instructions are distinct, the test of Phase 3 holds
of exactly the values of the instructions of the block. -/
theorem definedInBlock_iff (F : Function) (hU : F.InstIdsNodup) (n : Nat) (v : Value) :
    definedInBlock F n v = true ↔ ∃ D ∈ F.insts n, v = Value.instruction D.id := by
  constructor
  · intro hd
    cases v with
    | instruction id =>
      simp only [definedInBlock, decide_eq_true_eq] at hd
      obtain ⟨_, I, hI, hid⟩ := exists_inst_of_getParent F id n hd
      exact ⟨I, hI, by rw [hid]⟩
    | argument _ => simp [definedInBlock] at hd
    | basicBlock _ => simp [definedInBlock] at hd
    | globalVariable _ => simp [definedInBlock] at hd
    | constant _ => simp [definedInBlock] at hd
    | other _ => simp [definedInBlock] at hd
  · rintro ⟨D, hD, rfl⟩
    simp [definedInBlock, getParent_of_mem F hU n D hD]

/-- C23: in a function whose instructions are distinct and in which every
instruction whose value occurs as an operand is flagged as having a user, the
returned `LiveOut(n)` holds exactly the values that a successor contributes
through the liveness equation on the returned map and the operands of the phis
of `n` that are instructions of `n`; and for every block `s`, what `s`
contributes to its predecessors is the same on the returned map as on the map
at the end of Phase 2. -/
theorem C23_liveOut_equation_with_phi (F : Function) (hU : F.InstIdsNodup)
    (hF : OperandsHaveUsers F) :
    ∃ L res, phase2 F = some L ∧ LivenessAnalysis.runOnFunction F = some res ∧
      (∀ n v, v ∈ MapVector.index res.ResultBBLiveOut n ↔
        (∃ s ∈ F.succs n,
          (v ∈ MapVector.index res.ResultBBLiveOut s ∧
            v ∉ MapVector.index (phase1 F).VarKill s) ∨
          v ∈ MapVector.index (phase1 F).UEVar s) ∨
        (∃ Phi ∈ F.insts n, Phi.isPHI = true ∧ v ∈ Phi.operands ∧
          ∃ D ∈ F.insts n, v = Value.instruction D.id)) ∧
      ∀ s v, (v ∈ MapVector.index res.ResultBBLiveOut s ∧
          v ∉ MapVector.index (phase1 F).VarKill s) ↔
        (v ∈ MapVector.index L s ∧ v ∉ MapVector.index (phase1 F).VarKill s) := by
  obtain ⟨L, hL, _, _, hst, _⟩ := phase2_spec F
  have hflow : ∀ s v, (v ∈ MapVector.index (phiCorrection F L) s ∧
        v ∉ MapVector.index (phase1 F).VarKill s) ↔
      (v ∈ MapVector.index L s ∧ v ∉ MapVector.index (phase1 F).VarKill s) := by
    intro s v
    rw [mem_index_phiCorrection]
    constructor
    · rintro ⟨h | ⟨_, Phi, hPhi, _, hv, hd⟩, hk⟩
      · exact ⟨h, hk⟩
      · exact absurd (phi_value_in_varKill F hF s Phi v hPhi hv hd) hk
    · rintro ⟨h, hk⟩
      exact ⟨Or.inl h, hk⟩
  refine ⟨L, _, hL, liveness_runOnFunction_eq F L hL, ?_, hflow⟩
  intro n v
  simp only []
  rw [mem_index_phiCorrection, hst, mem_newLiveOut]
  constructor
  · rintro (⟨s, hs, h | h⟩ | ⟨_, Phi, hPhi, hphi, hv, hd⟩)
    · exact Or.inl ⟨s, hs, Or.inl ((hflow s v).2 h)⟩
    · exact Or.inl ⟨s, hs, Or.inr h⟩
    · exact Or.inr ⟨Phi, hPhi, hphi, hv, (definedInBlock_iff F hU n v).1 hd⟩
  · rintro (⟨s, hs, h | h⟩ | ⟨Phi, hPhi, hphi, hv, hD⟩)
    · exact Or.inl ⟨s, hs, Or.inl ((hflow s v).1 h)⟩
    · exact Or.inl ⟨s, hs, Or.inr h⟩
    · exact Or.inr ⟨lt_size_of_mem_insts F n Phi hPhi, Phi, hPhi, hphi, hv,
        (definedInBlock_iff F hU n v).2 hD⟩

/-- C23 at `loopFunction`. -/
theorem C23_liveOut_equation_with_phi_witness :
    loopFunction.InstIdsNodup ∧ OperandsHaveUsers loopFunction ∧
    ∃ L res, phase2 loopFunction = some L ∧
      LivenessAnalysis.runOnFunction loopFunction = some res ∧
      (∀ n v, v ∈ MapVector.index res.ResultBBLiveOut n ↔
        (∃ s ∈ loopFunction.succs n,
          (v ∈ MapVector.index res.ResultBBLiveOut s ∧
            v ∉ MapVector.index (phase1 loopFunction).VarKill s) ∨
          v ∈ MapVector.index (phase1 loopFunction).UEVar s) ∨
        (∃ Phi ∈ loopFunction.insts n, Phi.isPHI = true ∧ v ∈ Phi.operands ∧
          ∃ D ∈ loopFunction.insts n, v = Value.instruction D.id)) ∧
      ∀ s v, (v ∈ MapVector.index res.ResultBBLiveOut s ∧
          v ∉ MapVector.index (phase1 loopFunction).VarKill s) ↔
        (v ∈ MapVector.index L s ∧ v ∉ MapVector.index (phase1 loopFunction).VarKill s) :=
  ⟨by decide, by decide,
    C23_liveOut_equation_with_phi loopFunction (by decide) (by decide)⟩

/-! ## The claim on the returned map at a block without a self-referential phi -/

/-- C7, amended: in a function in which every instruction whose value occurs
as an operand is flagged as having a user, at every block `n` none of whose
phis has an operand that is an instruction of `n`, the returned `LiveOut` map
satisfies the liveness equation; the phis of the successors of `n` do not
matter. -/
theorem C7_returned_liveOut_equation (F : Function) (hF : OperandsHaveUsers F) (n : Nat)
    (hn : NoSelfPhiAt F n) :
    ∃ res, LivenessAnalysis.runOnFunction F = some res ∧
      LiveOutEquation F (phase1 F).UEVar (phase1 F).VarKill res.ResultBBLiveOut n := by
  obtain ⟨L, hL, _, _, hst, _⟩ := phase2_spec F
  refine ⟨_, liveness_runOnFunction_eq F L hL, ?_⟩
  have hflow : ∀ s v, (v ∈ MapVector.index (phiCorrection F L) s ∧
        v ∉ MapVector.index (phase1 F).VarKill s) ↔
      (v ∈ MapVector.index L s ∧ v ∉ MapVector.index (phase1 F).VarKill s) := by
    intro s v
    rw [mem_index_phiCorrection]
    constructor
    · rintro ⟨h | ⟨_, Phi, hPhi, _, hv, hd⟩, hk⟩
      · exact ⟨h, hk⟩
      · exact absurd (phi_value_in_varKill F hF s Phi v hPhi hv hd) hk
    · rintro ⟨h, hk⟩
      exact ⟨Or.inl h, hk⟩
  intro v
  simp only []
  rw [mem_index_phiCorrection_of_noSelfPhi F L n hn, hst, mem_newLiveOut]
  constructor
  · rintro ⟨s, hsucc, h | h⟩
    · exact ⟨s, hsucc, Or.inl ((hflow s v).2 h)⟩
    · exact ⟨s, hsucc, Or.inr h⟩
  · rintro ⟨s, hsucc, h | h⟩
    · exact ⟨s, hsucc, Or.inl ((hflow s v).1 h)⟩
    · exact ⟨s, hsucc, Or.inr h⟩

/-- C7, amended, at the entry block of `loopFunction`, whose successor holds
a phi with an operand from its own block. -/
theorem C7_returned_liveOut_equation_witness :
    OperandsHaveUsers loopFunction ∧ NoSelfPhiAt loopFunction 0 ∧
    ¬ NoSelfPhiAt loopFunction 1 ∧ 1 ∈ loopFunction.succs 0 ∧
    ∃ res, LivenessAnalysis.runOnFunction loopFunction = some res ∧
      LiveOutEquation loopFunction (phase1 loopFunction).UEVar
        (phase1 loopFunction).VarKill res.ResultBBLiveOut 0 :=
  ⟨by decide, by decide, by decide, by decide,
    C7_returned_liveOut_equation loopFunction (by decide) 0 (by decide)⟩

end LLVMAnalysisTool
